import Mathlib

/-! p6towav: tape image to FSK audio.

A shallow embedding of `p6towav.c`.  The program reads a tape image and
writes 8 bit mono PCM samples: every byte becomes a UART frame (one start
bit, eight data bits, three stop bits) and every bit becomes 16 samples of
a 1200 Hz or 2400 Hz square wave.

Modelling conventions.

* An output stream is the list of bytes written to it so far, oldest first;
  `fwrite` of one byte appends to that list.
* `uint8_t` and `uint32_t` values are natural numbers; arithmetic done in
  `uint32_t` is reduced modulo `2^32` where the C code computes it.
* A division by zero and a read outside a buffer have no defined result in
  C; functions that can reach one return `Option`, with `none` for those
  runs.
* Loop counters of type `int` are natural numbers.  This is exact as long as
  a loop runs at most `2^31 - 1` times.  The byte loop of `write_block`
  compares its `int` counter with a `size_t` length: on a slice of `2^31`
  bytes or more the increment `++i` overflows and the C run is undefined,
  while the model goes on counting.  Theorems that say which bytes are
  framed therefore take slices shorter than `2^31` bytes; properties of any
  sequence of whole frames (sample values, run lengths, bit alignment) do
  not depend on the number of frames.
* Every `fwrite` succeeds.
-/

namespace P6towav

/-! ## Constants (`#define`s of the source) -/

abbrev WAV_HEADER_SIZE : Nat := 44
abbrev SAMPLE_RATE : Nat := 19200

abbrev TAPE_BAUD : Nat := 1200
abbrev BIT0_FREQ : Nat := TAPE_BAUD
abbrev BIT1_FREQ : Nat := TAPE_BAUD * 2

abbrev BIT_SAMPLES : Nat := SAMPLE_RATE / TAPE_BAUD

abbrev LONG_HEADER_MSEC : Nat := 2000
abbrev SHORT_HEADER_MSEC : Nat := 500

abbrev BASIC_HEADER_SIZE : Nat := 16
abbrev BASIC_HEADER_BIN : Nat := 0xd3
abbrev BASIC_NAME_LEN : Nat := 6
abbrev BASIC_HEADER_LEN : Nat := BASIC_HEADER_SIZE - BASIC_NAME_LEN

abbrev STOP_BITS : Nat := 3

/-! ## Machine level helpers -/

/-- An output stream: the bytes written so far, in the order written. -/
abbrev FILE := List Nat

/-- The call `fwrite(&value, 1, 1, f)`: one byte is appended to the stream. -/
def fwrite1 (f : FILE) (value : Nat) : FILE := f ++ [value]

/-- The assignment `value = ~value` on a `uint8_t`: the complement is taken
after promotion to `int` and truncated back to eight bits. -/
def not_u8 (value : Nat) : Nat := 0xFF - value % 256

/-- Conversion of a `uint32_t` value to `int` (two's complement, 32 bit). -/
def u32_to_int (x : Nat) : Int :=
  if x % 2 ^ 32 < 2 ^ 31 then ((x % 2 ^ 32 : Nat) : Int) else ((x % 2 ^ 32 : Nat) : Int) - 2 ^ 32

/-- A counting loop `for (int i = start; i < start + k; i++) body(i)` over a
stream, where `k` is the number of iterations still to run.  The loop stops
with `none` as soon as the body does. -/
def for_loop_from (body : Nat → FILE → Option FILE) : Nat → Nat → FILE → Option FILE
  | 0, _, f => some f
  | k + 1, i, f =>
    match body i f with
    | none => none
    | some g => for_loop_from body k (i + 1) g

/-- The loop `for (int i = 0; i < n; i++) body(i)`. -/
def for_loop (n : Nat) (body : Nat → FILE → Option FILE) (f : FILE) : Option FILE :=
  for_loop_from body n 0 f

/-! ## The encoder -/

/-- The loop of `write_square_wave`.  The first numeric argument is the number
of iterations still to run (`total_samples - i`); `count` and `value` are the
loop's variables.  Each iteration writes `value`, increments `count`, and
when `count >= samples_per_half` complements `value` and resets `count`. -/
def write_square_wave_loop (samples_per_half : Int) : Nat → Int → Nat → FILE → FILE
  | 0, _, _, f => f
  | k + 1, count, value, f =>
    let g := fwrite1 f value
    if count + 1 ≥ samples_per_half then
      write_square_wave_loop samples_per_half k 0 (not_u8 value) g
    else
      write_square_wave_loop samples_per_half k (count + 1) value g

/-- The function `write_square_wave(f, freq, total_samples)`.  The divisor
`freq * 2` is computed in `uint32_t`; the quotient of `SAMPLE_RATE` by it is
at most 19200 and is stored in an `int`.  The loop runs `total_samples` times
(not at all when `total_samples` is negative). -/
def write_square_wave (f : FILE) (freq : Nat) (total_samples : Int) : Option FILE :=
  let divisor := (freq * 2) % 2 ^ 32
  if divisor = 0 then
    none
  else
    let samples_per_half : Int := ((SAMPLE_RATE / divisor : Nat) : Int)
    some (write_square_wave_loop samples_per_half total_samples.toNat 0 0xFF f)

/-- The function `write_bit(f, bit)`: any non-zero `bit` selects `BIT1_FREQ`. -/
def write_bit (f : FILE) (bit : Int) : Option FILE :=
  let freq := if bit ≠ 0 then BIT1_FREQ else BIT0_FREQ
  write_square_wave f freq (BIT_SAMPLES : Nat)

/-- The function `write_byte(f, byte)`: start bit, the eight data bits
`(byte >> i) & 1` for `i = 0 .. 7`, then `STOP_BITS` stop bits. -/
def write_byte (f : FILE) (byte : Nat) : Option FILE :=
  match write_bit f 0 with
  | none => none
  | some f1 =>
    match for_loop 8 (fun i g => write_bit g (((byte >>> i) &&& 1 : Nat) : Int)) f1 with
    | none => none
    | some f2 => for_loop STOP_BITS (fun _ g => write_bit g 1) f2

/-- The function `write_block(f, data, len, short_header)`.  `data` is the
memory readable from the pointer, `len` the number of bytes to frame; a read
at an index outside `data` gives `none`.  `header_samples` is computed in
`uint32_t` and converted to `int` at the call of `write_square_wave`.  The
byte loop counts in natural numbers, which is the C loop with its `int`
counter for `len < 2^31`. -/
def write_block (f : FILE) (data : List Nat) (len : Nat) (short_header : Int) : Option FILE :=
  let header_msec := if short_header ≠ 0 then SHORT_HEADER_MSEC else LONG_HEADER_MSEC
  let header_samples := (SAMPLE_RATE * header_msec) % 2 ^ 32 / 1000
  match write_square_wave f BIT1_FREQ (u32_to_int header_samples) with
  | none => none
  | some f1 =>
    for_loop len
      (fun i g =>
        match data[i]? with
        | none => none
        | some b => write_byte g b)
      f1

/-- The loop of `is_basic_format`: `k` iterations remain, `i` is the index.
A byte different from `BASIC_HEADER_BIN` returns 0 at once; when the loop
runs to its end the function returns 1. -/
def is_basic_format_loop (buf : List Nat) : Nat → Nat → Option Int
  | 0, _ => some 1
  | k + 1, i =>
    match buf[i]? with
    | none => none
    | some b => if b ≠ BASIC_HEADER_BIN then some 0 else is_basic_format_loop buf k (i + 1)

/-- The function `is_basic_format(buf, size)`; `buf` is the memory readable
from the pointer and `size` the size passed along with it. -/
def is_basic_format (buf : List Nat) (size : Nat) : Option Int :=
  if size < BASIC_HEADER_SIZE then
    some 0
  else
    is_basic_format_loop buf BASIC_HEADER_LEN 0

/-- The conversion step of `main` (the `if (is_basic_format(...))` statement).
`p6file` is the content of the input file, read whole into `buf`, so that
`p6size` is its length.  The output file is positioned just behind the
reserved header; the result is the sample stream written from there on. -/
def main (p6file : List Nat) : Option FILE :=
  let buf := p6file
  let p6size := p6file.length
  let wavefile : FILE := []
  match is_basic_format buf p6size with
  | none => none
  | some r =>
    if r ≠ 0 then
      match write_block wavefile buf BASIC_HEADER_SIZE 0 with
      | none => none
      | some f1 =>
        if p6size > BASIC_HEADER_SIZE then
          write_block f1 (buf.drop BASIC_HEADER_SIZE) (p6size - BASIC_HEADER_SIZE) 1
        else
          some f1
    else
      write_block wavefile buf p6size 0

/-- The expression `SAMPLE_RATE * header_msec / 1000` that `write_block`
assigns to `header_samples`, computed in `uint32_t`. -/
def header_samples (header_msec : Nat) : Nat := (SAMPLE_RATE * header_msec) % 2 ^ 32 / 1000

/-- The calls of `write_block` made by `main`, in the order made: for each
call the offset of its `data` pointer inside `buf`, its `len` and its
`short_header`. -/
def main_calls (p6file : List Nat) : Option (List (Nat × Nat × Int)) :=
  let buf := p6file
  let p6size := p6file.length
  match is_basic_format buf p6size with
  | none => none
  | some r =>
    if r ≠ 0 then
      if p6size > BASIC_HEADER_SIZE then
        some [(0, BASIC_HEADER_SIZE, 0), (BASIC_HEADER_SIZE, p6size - BASIC_HEADER_SIZE, 1)]
      else
        some [(0, BASIC_HEADER_SIZE, 0)]
    else
      some [(0, p6size, 0)]

/-- Performs a list of `write_block` calls on `buf`, one after the other. -/
def run_calls (buf : List Nat) : List (Nat × Nat × Int) → FILE → Option FILE
  | [], f => some f
  | (off, len, short_header) :: rest, f =>
    match write_block f (buf.drop off) len short_header with
    | none => none
    | some g => run_calls buf rest g

/-! ## The container header -/

/-- The function `int_to_le32enc(buf, in)`: the four bytes it stores at
`buf[0] .. buf[3]`. -/
def int_to_le32enc (x : Nat) : List Nat :=
  [x &&& 0xff, (x >>> 8) &&& 0xff, (x >>> 16) &&& 0xff, (x >>> 24) &&& 0xff]

/-- The function `write_wav_header(f, sample_count)`, `sample_count` being a
`uint32_t` value.  `file_size` is computed in `uint32_t`.  The 44 header
bytes are written with one `fwrite`. -/
def write_wav_header (f : FILE) (sample_count : Nat) : FILE :=
  let smpl_rate := SAMPLE_RATE
  let byte_rate := SAMPLE_RATE
  let data_size := sample_count
  let file_size := (data_size + WAV_HEADER_SIZE - 8) % 2 ^ 32
  let file_size_le := int_to_le32enc file_size
  let smpl_rate_le := int_to_le32enc smpl_rate
  let byte_rate_le := int_to_le32enc byte_rate
  let data_size_le := int_to_le32enc data_size
  let header : List Nat := [
    Char.toNat 'R', Char.toNat 'I', Char.toNat 'F', Char.toNat 'F',
    file_size_le.getD 0 0, file_size_le.getD 1 0, file_size_le.getD 2 0, file_size_le.getD 3 0,
    Char.toNat 'W', Char.toNat 'A', Char.toNat 'V', Char.toNat 'E',
    Char.toNat 'f', Char.toNat 'm', Char.toNat 't', Char.toNat ' ',
    16, 0, 0, 0,
    1, 0,
    1, 0,
    smpl_rate_le.getD 0 0, smpl_rate_le.getD 1 0, smpl_rate_le.getD 2 0, smpl_rate_le.getD 3 0,
    byte_rate_le.getD 0 0, byte_rate_le.getD 1 0, byte_rate_le.getD 2 0, byte_rate_le.getD 3 0,
    1, 0,
    8, 0,
    Char.toNat 'd', Char.toNat 'a', Char.toNat 't', Char.toNat 'a',
    data_size_le.getD 0 0, data_size_le.getD 1 0, data_size_le.getD 2 0, data_size_le.getD 3 0]
  f ++ header

/-! ## Observations -/

/-- The samples a writer appends to an empty stream. -/
def emitted (w : FILE → Option FILE) : List Nat := (w []).getD []

/-- The samples appended by `write_square_wave(f, freq, total_samples)`. -/
def tone (freq : Nat) (total_samples : Int) : List Nat :=
  emitted (fun g => write_square_wave g freq total_samples)

/-- The samples appended by `write_bit(f, bit)`. -/
def bit_wave (bit : Int) : List Nat := emitted (fun g => write_bit g bit)

/-- The samples appended by `write_byte(f, byte)`. -/
def byte_frame (byte : Nat) : List Nat := emitted (fun g => write_byte g byte)

/-- The bytes appended by `write_wav_header(f, sample_count)`. -/
def wav_header (sample_count : Nat) : List Nat := write_wav_header [] sample_count

/-- The value of a little-endian byte sequence: byte `i` weighs `256 ^ i`. -/
def le_value : List Nat → Nat
  | [] => 0
  | b :: rest => b + 256 * le_value rest

/-- The `bit` arguments of the twelve `write_bit` calls that
`write_byte(f, byte)` makes, in the order of the calls. -/
def frame_bits (byte : Nat) : List Int :=
  [0,
   (((byte >>> 0) &&& 1 : Nat) : Int), (((byte >>> 1) &&& 1 : Nat) : Int),
   (((byte >>> 2) &&& 1 : Nat) : Int), (((byte >>> 3) &&& 1 : Nat) : Int),
   (((byte >>> 4) &&& 1 : Nat) : Int), (((byte >>> 5) &&& 1 : Nat) : Int),
   (((byte >>> 6) &&& 1 : Nat) : Int), (((byte >>> 7) &&& 1 : Nat) : Int),
   1, 1, 1]

/-- A list of runs, each a sample value and a length, written out as
samples. -/
def expand_runs (runs : List (Nat × Nat)) : List Nat :=
  runs.flatMap (fun r => List.replicate r.2 r.1)

/-- The runs of the wave of one bit: two half-cycles of 8 samples for 0, four
half-cycles of 4 samples for any other value. -/
def bit_runs (bit : Int) : List (Nat × Nat) :=
  if bit = 0 then [(0xFF, 8), (0x00, 8)] else [(0xFF, 4), (0x00, 4), (0xFF, 4), (0x00, 4)]

/-- The level of the square wave in half-cycle number `q`: high in the even
ones, low in the odd ones. -/
def level (q : Nat) : Nat := if q % 2 = 0 then 0xFF else 0x00

/-! ## The square wave loop -/

theorem write_square_wave_loop_append (h : Int) (k : Nat) :
    ∀ (count : Int) (value : Nat) (f : FILE),
      write_square_wave_loop h k count value f
        = f ++ write_square_wave_loop h k count value [] := by
  induction k with
  | zero => intro count value f; simp [write_square_wave_loop]
  | succ k ih =>
    intro count value f
    simp only [write_square_wave_loop, fwrite1]
    split
    · rw [ih 0 (not_u8 value) (f ++ [value]), ih 0 (not_u8 value) ([] ++ [value])]
      simp
    · rw [ih (count + 1) value (f ++ [value]), ih (count + 1) value ([] ++ [value])]
      simp

theorem write_square_wave_loop_length (h : Int) (k : Nat) :
    ∀ (count : Int) (value : Nat) (f : FILE),
      (write_square_wave_loop h k count value f).length = f.length + k := by
  induction k with
  | zero => intro count value f; simp [write_square_wave_loop]
  | succ k ih =>
    intro count value f
    simp only [write_square_wave_loop, fwrite1]
    split
    · rw [ih]; simp; omega
    · rw [ih]; simp; omega

theorem not_u8_level (q : Nat) : not_u8 (level q) = level (q + 1) := by
  unfold not_u8 level
  rcases Nat.mod_two_eq_zero_or_one q with h | h
  · have h2 : (q + 1) % 2 = 1 := by omega
    simp [h, h2]
  · have h2 : (q + 1) % 2 = 0 := by omega
    simp [h, h2]

theorem div_of_lt_half (h q r : Nat) (hr : r < h) : (q * h + r) / h = q := by
  have hpos : 0 < h := by omega
  rw [Nat.add_comm, Nat.add_mul_div_right _ _ hpos, Nat.div_eq_of_lt hr, Nat.zero_add]

/-- Closed form of the loop: entered in half-cycle `q` with `r < h` samples of
it already written, it appends the levels of the next `k` sample positions. -/
theorem write_square_wave_loop_closed (h : Nat) (k : Nat) :
    ∀ (q r : Nat) (f : FILE), r < h →
      write_square_wave_loop (h : Int) k (r : Int) (level q) f
        = f ++ (List.range k).map (fun j => level ((q * h + r + j) / h)) := by
  induction k with
  | zero => intro q r f _; simp [write_square_wave_loop]
  | succ k ih =>
    intro q r f hr
    have hq : (q * h + r) / h = q := div_of_lt_half h q r hr
    rw [List.range_succ_eq_map]
    simp only [write_square_wave_loop, fwrite1, List.map_cons, List.map_map, Nat.add_zero, hq]
    by_cases hflip : r + 1 = h
    · have hc : (r : Int) + 1 ≥ (h : Int) := by omega
      rw [if_pos hc, not_u8_level]
      have h0 := ih (q + 1) 0 (f ++ [level q]) (by omega)
      simp only [Nat.cast_zero] at h0
      rw [h0]
      simp only [List.append_assoc, List.singleton_append, List.append_cancel_left_eq,
        List.cons.injEq, true_and]
      apply List.map_congr_left
      intro j _
      have e : (q + 1) * h + 0 + j = q * h + r + (j + 1) := by
        rw [Nat.add_mul]; omega
      simp only [Function.comp, Nat.succ_eq_add_one, e]
    · have hc : ¬ ((r : Int) + 1 ≥ (h : Int)) := by omega
      rw [if_neg hc]
      have h1 := ih q (r + 1) (f ++ [level q]) (by omega)
      simp only [Nat.cast_add, Nat.cast_one] at h1
      rw [h1]
      simp only [List.append_assoc, List.singleton_append, List.append_cancel_left_eq,
        List.cons.injEq, true_and]
      apply List.map_congr_left
      intro j _
      have e : q * h + (r + 1) + j = q * h + r + (j + 1) := by omega
      simp only [Function.comp, Nat.succ_eq_add_one, e]

/-! ## write_square_wave -/

theorem write_square_wave_none (f : FILE) (freq : Nat) (n : Int)
    (h : (freq * 2) % 2 ^ 32 = 0) : write_square_wave f freq n = none := by
  simp only [write_square_wave, if_pos h]

theorem write_square_wave_some (f : FILE) (freq : Nat) (n : Int)
    (h : (freq * 2) % 2 ^ 32 ≠ 0) :
    write_square_wave f freq n = some (f ++ tone freq n) := by
  simp only [tone, emitted, write_square_wave, if_neg h, Option.getD_some]
  rw [write_square_wave_loop_append]

theorem tone_length (freq : Nat) (n : Int) (h : (freq * 2) % 2 ^ 32 ≠ 0) :
    (tone freq n).length = n.toNat := by
  simp only [tone, emitted, write_square_wave, if_neg h, Option.getD_some]
  rw [write_square_wave_loop_length]
  simp

theorem tone_closed (freq : Nat) (n : Int) (hpos : 0 < freq) (hle : 2 * freq ≤ 19200) :
    tone freq n = (List.range n.toNat).map (fun i => level (i / (19200 / (2 * freq)))) := by
  have hd : (freq * 2) % 2 ^ 32 = 2 * freq := by omega
  have hne : ¬ (2 * freq = 0) := by omega
  have hh : 0 < 19200 / (2 * freq) := Nat.div_pos hle (by omega)
  simp only [tone, emitted, write_square_wave, hd, if_neg hne, Option.getD_some]
  have hl := write_square_wave_loop_closed (19200 / (2 * freq)) n.toNat 0 0 [] hh
  simp only [Nat.cast_zero, Nat.zero_mul, Nat.zero_add, List.nil_append] at hl
  exact hl

/-- C2, as amended.  For every 32 bit frequency `freq > 0` other than `2^31`
and every sample count `n >= 0`, `write_square_wave` returns and appends
exactly `n` samples to the stream. -/
theorem write_square_wave_length (f : FILE) (freq : Nat) (n : Int)
    (hpos : 0 < freq) (h32 : freq < 2 ^ 32) (hne : freq ≠ 2 ^ 31) (hn : 0 ≤ n) :
    ∃ s : List Nat, write_square_wave f freq n = some (f ++ s) ∧ (s.length : Int) = n := by
  have hd : (freq * 2) % 2 ^ 32 ≠ 0 := by omega
  refine ⟨tone freq n, write_square_wave_some f freq n hd, ?_⟩
  rw [tone_length freq n hd]
  exact Int.toNat_of_nonneg hn

/-- The amended C2 at the frequency 3000 Hz and 10 samples, a count that is
not a multiple of the half-cycle length 3. -/
theorem write_square_wave_length_witness :
    ∃ s : List Nat, write_square_wave [] 3000 10 = some ([] ++ s) ∧ (s.length : Int) = 10 :=
  write_square_wave_length [] 3000 10 (by decide) (by decide) (by decide) (by decide)

/-- C2 as stated fails: the frequency `2^31` is positive, yet its double is 0
in `uint32_t`, the half-cycle length is a division by zero and no sample is
written. -/
theorem write_square_wave_length_counterexample :
    (0 : Nat) < 2147483648 ∧ 2147483648 < 2 ^ 32 ∧ (0 : Int) ≤ 16 ∧
      write_square_wave [] 2147483648 16 = none := by
  decide

/-- C3, as amended.  For every frequency `freq > 0` with `2 * freq <= 19200`
the half-cycle length `h = 19200 / (2 * freq)` is at least 1, and for every
`n` the call `write_square_wave(f, freq, n)` appends `n` samples (none when
`n` is negative) of which the `i`-th is `0xFF` when `i / h` is even and `0x00`
when `i / h` is odd. -/
theorem write_square_wave_samples (f : FILE) (freq : Nat) (n : Int)
    (hpos : 0 < freq) (hle : 2 * freq ≤ 19200) :
    1 ≤ 19200 / (2 * freq) ∧
    ∃ s : List Nat, write_square_wave f freq n = some (f ++ s) ∧ s.length = n.toNat ∧
      ∀ i : Nat, (i : Int) < n →
        s[i]? = some (if (i / (19200 / (2 * freq))) % 2 = 0 then 0xFF else 0x00) := by
  have hd : (freq * 2) % 2 ^ 32 ≠ 0 := by omega
  refine ⟨Nat.div_pos hle (by omega), tone freq n, write_square_wave_some f freq n hd,
    tone_length freq n hd, ?_⟩
  intro i hi
  have hi2 : i < n.toNat := by omega
  rw [tone_closed freq n hpos hle, List.getElem?_map, List.getElem?_range hi2]
  rfl

/-- The amended C3 at 3000 Hz (half-cycle length 3) and 10 samples. -/
theorem write_square_wave_samples_witness :
    1 ≤ 19200 / (2 * 3000) ∧
    ∃ s : List Nat, write_square_wave [] 3000 10 = some ([] ++ s) ∧ s.length = (10 : Int).toNat ∧
      ∀ i : Nat, (i : Int) < 10 →
        s[i]? = some (if (i / (19200 / (2 * 3000))) % 2 = 0 then 0xFF else 0x00) :=
  write_square_wave_samples [] 3000 10 (by decide) (by decide)

/-- C3 as stated fails at the frequency 0, which satisfies `2 * f <= 19200`:
the half-cycle length is then a division by zero and nothing is written. -/
theorem write_square_wave_samples_counterexample :
    2 * 0 ≤ 19200 ∧ write_square_wave [] 0 1 = none := by
  decide

/-! ## write_bit -/

theorem write_bit_some (f : FILE) (bit : Int) : write_bit f bit = some (f ++ bit_wave bit) := by
  have h : ∀ g : FILE, write_bit g bit
      = some (g ++ tone (if bit ≠ 0 then BIT1_FREQ else BIT0_FREQ) (BIT_SAMPLES : Nat)) := by
    intro g
    unfold write_bit
    apply write_square_wave_some
    split <;> decide
  simp only [bit_wave, emitted]
  rw [h f, h []]
  simp

theorem bit_wave_zero :
    bit_wave 0 = List.replicate 8 0xFF ++ List.replicate 8 0x00 := by
  decide

theorem bit_wave_nonzero (bit : Int) (h : bit ≠ 0) :
    bit_wave bit = List.replicate 4 0xFF ++ List.replicate 4 0x00
      ++ List.replicate 4 0xFF ++ List.replicate 4 0x00 := by
  have e : bit_wave bit = bit_wave 1 := by
    simp [bit_wave, write_bit, h]
  rw [e]
  decide

theorem bit_wave_length (bit : Int) : (bit_wave bit).length = 16 := by
  by_cases h : bit = 0
  · subst h; rw [bit_wave_zero]; rfl
  · rw [bit_wave_nonzero bit h]; rfl

/-- C4.  `write_bit` always returns and appends exactly 16 samples: for
`bit = 0` the 1200 Hz square wave (8 high, 8 low), for every other `bit` the
2400 Hz square wave (4 high, 4 low, 4 high, 4 low).  The divisors of the
half-cycle computation are 2400 and 4800, never zero, and the half-cycle
lengths are 8 and 4. -/
theorem write_bit_samples (f : FILE) (bit : Int) :
    (∃ s : List Nat, write_bit f bit = some (f ++ s) ∧ s.length = 16 ∧ 16 = 19200 / 1200 ∧
      s = if bit = 0 then List.replicate 8 0xFF ++ List.replicate 8 0x00
          else List.replicate 4 0xFF ++ List.replicate 4 0x00
            ++ List.replicate 4 0xFF ++ List.replicate 4 0x00) ∧
    write_bit f bit = write_square_wave f (if bit = 0 then 1200 else 2400) 16 ∧
    (BIT0_FREQ * 2) % 2 ^ 32 ≠ 0 ∧ (BIT1_FREQ * 2) % 2 ^ 32 ≠ 0 ∧
    SAMPLE_RATE / ((BIT0_FREQ * 2) % 2 ^ 32) = 8 ∧
    SAMPLE_RATE / ((BIT1_FREQ * 2) % 2 ^ 32) = 4 := by
  refine ⟨⟨bit_wave bit, write_bit_some f bit, bit_wave_length bit, by decide, ?_⟩, ?_,
    by decide, by decide, by decide, by decide⟩
  · by_cases h : bit = 0
    · subst h; rw [bit_wave_zero]; rfl
    · rw [bit_wave_nonzero bit h, if_neg h]
  · by_cases h : bit = 0
    · subst h; rfl
    · have hb : bit ≠ 0 := h
      simp only [write_bit, if_neg h, if_pos hb]
      rfl

/-! ## write_byte -/

theorem for_loop_from_append (body : Nat → FILE → Option FILE) (e : Nat → List Nat)
    (hb : ∀ i g, body i g = some (g ++ e i)) (k : Nat) :
    ∀ (i : Nat) (f : FILE),
      for_loop_from body k i f = some (f ++ (List.range k).flatMap (fun j => e (i + j))) := by
  induction k with
  | zero => intro i f; simp [for_loop_from]
  | succ k ih =>
    intro i f
    simp only [for_loop_from, hb, ih, List.range_succ_eq_map, List.flatMap_cons, Nat.add_zero,
      List.append_assoc, List.flatMap_map]
    congr 3
    apply List.flatMap_congr
    intro j _
    simp only [Function.comp, Nat.succ_eq_add_one]
    congr 1
    omega

theorem range_eight : List.range 8 = [0, 1, 2, 3, 4, 5, 6, 7] := by decide

theorem range_three : List.range 3 = [0, 1, 2] := by decide

theorem write_byte_eq (f : FILE) (b : Nat) :
    write_byte f b = some (f ++ (bit_wave 0
      ++ bit_wave (((b >>> 0) &&& 1 : Nat) : Int) ++ bit_wave (((b >>> 1) &&& 1 : Nat) : Int)
      ++ bit_wave (((b >>> 2) &&& 1 : Nat) : Int) ++ bit_wave (((b >>> 3) &&& 1 : Nat) : Int)
      ++ bit_wave (((b >>> 4) &&& 1 : Nat) : Int) ++ bit_wave (((b >>> 5) &&& 1 : Nat) : Int)
      ++ bit_wave (((b >>> 6) &&& 1 : Nat) : Int) ++ bit_wave (((b >>> 7) &&& 1 : Nat) : Int)
      ++ bit_wave 1 ++ bit_wave 1 ++ bit_wave 1)) := by
  have h1 := for_loop_from_append (fun i g => write_bit g (((b >>> i) &&& 1 : Nat) : Int))
    (fun i => bit_wave (((b >>> i) &&& 1 : Nat) : Int)) (fun i g => write_bit_some g _) 8 0
  have h2 := for_loop_from_append (fun _ g => write_bit g 1)
    (fun _ => bit_wave 1) (fun _ g => write_bit_some g _) 3 0
  unfold write_byte for_loop
  rw [write_bit_some f 0]
  simp only [h1, h2, range_eight, range_three,
    List.flatMap_cons, List.flatMap_nil, Nat.zero_add, List.append_nil, List.append_assoc]

theorem byte_frame_eq (b : Nat) :
    byte_frame b = bit_wave 0
      ++ bit_wave (((b >>> 0) &&& 1 : Nat) : Int) ++ bit_wave (((b >>> 1) &&& 1 : Nat) : Int)
      ++ bit_wave (((b >>> 2) &&& 1 : Nat) : Int) ++ bit_wave (((b >>> 3) &&& 1 : Nat) : Int)
      ++ bit_wave (((b >>> 4) &&& 1 : Nat) : Int) ++ bit_wave (((b >>> 5) &&& 1 : Nat) : Int)
      ++ bit_wave (((b >>> 6) &&& 1 : Nat) : Int) ++ bit_wave (((b >>> 7) &&& 1 : Nat) : Int)
      ++ bit_wave 1 ++ bit_wave 1 ++ bit_wave 1 := by
  simp only [byte_frame, emitted, write_byte_eq, Option.getD_some, List.nil_append]

theorem write_byte_some (f : FILE) (b : Nat) : write_byte f b = some (f ++ byte_frame b) := by
  rw [byte_frame_eq, write_byte_eq]

theorem byte_frame_length (b : Nat) : (byte_frame b).length = 192 := by
  simp only [byte_frame_eq, List.length_append, bit_wave_length]

set_option maxRecDepth 100000 in
theorem byte_frame_one_slots :
    ((byte_frame 0x01).drop 16).take 16 = bit_wave 1 ∧
    ((byte_frame 0x01).drop (8 * 16)).take 16 = bit_wave 0 := by
  decide

/-- C1.  The frame written by `write_byte(b)` is the concatenation of 12 bit
slots of 16 samples, each one what `write_bit` writes: the start bit 0, the
data bits `(b >> k) & 1` for `k = 0 .. 7` in that order (bit `k` of `b`, least
significant first), and three stop bits 1.  For `b = 0x01` the 2nd slot is
the encoding of bit 1 and the 9th slot the encoding of bit 0. -/
theorem write_byte_frame (f : FILE) (b : Nat) :
    write_byte f b = some (f ++ (bit_wave 0
      ++ bit_wave (((b >>> 0) &&& 1 : Nat) : Int) ++ bit_wave (((b >>> 1) &&& 1 : Nat) : Int)
      ++ bit_wave (((b >>> 2) &&& 1 : Nat) : Int) ++ bit_wave (((b >>> 3) &&& 1 : Nat) : Int)
      ++ bit_wave (((b >>> 4) &&& 1 : Nat) : Int) ++ bit_wave (((b >>> 5) &&& 1 : Nat) : Int)
      ++ bit_wave (((b >>> 6) &&& 1 : Nat) : Int) ++ bit_wave (((b >>> 7) &&& 1 : Nat) : Int)
      ++ bit_wave 1 ++ bit_wave 1 ++ bit_wave 1)) ∧
    (∀ (g : FILE) (bit : Int),
      write_bit g bit = some (g ++ bit_wave bit) ∧ (bit_wave bit).length = 16) ∧
    (∀ k : Nat, (b >>> k) &&& 1 = (b / 2 ^ k) % 2) ∧
    ((byte_frame 0x01).drop 16).take 16 = bit_wave 1 ∧
    ((byte_frame 0x01).drop (8 * 16)).take 16 = bit_wave 0 := by
  refine ⟨write_byte_eq f b, fun g bit => ⟨write_bit_some g bit, bit_wave_length bit⟩, ?_,
    byte_frame_one_slots.1, byte_frame_one_slots.2⟩
  intro k
  rw [Nat.and_one_is_mod, Nat.shiftRight_eq_div_pow]

/-- C5.  For every byte value `write_byte` returns and appends exactly
`(1 + 8 + 3) * 16 = 192` samples, whatever the value is. -/
theorem write_byte_length (f : FILE) (b : Nat) :
    ∃ frame : List Nat, write_byte f b = some (f ++ frame) ∧
      frame.length = (1 + 8 + 3) * 16 ∧ frame.length = 192 :=
  ⟨byte_frame b, write_byte_some f b, byte_frame_length b, byte_frame_length b⟩

/-! ## write_block -/

theorem byte_frames_length (d : List Nat) : (d.flatMap byte_frame).length = 192 * d.length := by
  induction d with
  | nil => rfl
  | cons b d ih =>
    simp only [List.flatMap_cons, List.length_append, byte_frame_length, ih, List.length_cons]
    omega

/-- The byte loop of `write_block` over the part `d` of the memory
`pre ++ d ++ post`, entered at index `pre.length`. -/
theorem write_block_loop (d : List Nat) :
    ∀ (pre post : List Nat) (f : FILE),
      for_loop_from
        (fun i g =>
          match (pre ++ d ++ post)[i]? with
          | none => none
          | some b => write_byte g b)
        d.length pre.length f
      = some (f ++ d.flatMap byte_frame) := by
  induction d with
  | nil => intro pre post f; simp [for_loop_from]
  | cons b d ih =>
    intro pre post f
    have hb : (pre ++ b :: d ++ post)[pre.length]? = some b := by
      rw [List.append_assoc, List.getElem?_append_right (Nat.le_refl _)]
      simp
    have hs : pre ++ b :: d ++ post = (pre ++ [b]) ++ d ++ post := by simp
    have h := ih (pre ++ [b]) post (f ++ byte_frame b)
    simp only [List.length_append, List.length_singleton] at h
    simp only [List.length_cons, for_loop_from, hb, write_byte_some f b, List.flatMap_cons]
    rw [hs, h, List.append_assoc]

theorem header_samples_long :
    u32_to_int ((SAMPLE_RATE * LONG_HEADER_MSEC) % 2 ^ 32 / 1000) = 38400 := by decide

theorem header_samples_short :
    u32_to_int ((SAMPLE_RATE * SHORT_HEADER_MSEC) % 2 ^ 32 / 1000) = 9600 := by decide

/-- Closed form of `write_block` when the `len` bytes to frame lie inside the
memory `data`. -/
theorem write_block_eq (f : FILE) (data : List Nat) (len : Nat) (short_header : Int)
    (hlen : len ≤ data.length) :
    write_block f data len short_header
      = some (f ++ (tone 2400 (if short_header ≠ 0 then 9600 else 38400)
          ++ (data.take len).flatMap byte_frame)) := by
  have hl := write_block_loop (data.take len) [] (data.drop len)
  simp only [List.nil_append, List.take_append_drop, List.length_nil, List.length_take,
    Nat.min_eq_left hlen] at hl
  have hd : (BIT1_FREQ * 2) % 2 ^ 32 ≠ 0 := by decide
  unfold write_block for_loop
  by_cases hs : short_header ≠ 0
  · simp only [if_pos hs, header_samples_short, write_square_wave_some _ _ _ hd, hl,
      List.append_assoc]
    rfl
  · simp only [if_neg hs, header_samples_long, write_square_wave_some _ _ _ hd, hl,
      List.append_assoc]
    rfl

theorem write_block_long (f : FILE) (data : List Nat) (len : Nat) (hlen : len ≤ data.length) :
    write_block f data len 0
      = some (f ++ (tone 2400 38400 ++ (data.take len).flatMap byte_frame)) := by
  have h := write_block_eq f data len 0 hlen
  rw [if_neg (by decide)] at h
  exact h

theorem write_block_short (f : FILE) (data : List Nat) (len : Nat) (hlen : len ≤ data.length) :
    write_block f data len 1
      = some (f ++ (tone 2400 9600 ++ (data.take len).flatMap byte_frame)) := by
  have h := write_block_eq f data len 1 hlen
  rw [if_pos (by decide)] at h
  exact h

theorem tone_long_length : (tone 2400 38400).length = 38400 := by
  rw [tone_length 2400 38400 (by decide)]; rfl

theorem tone_short_length : (tone 2400 9600).length = 9600 := by
  rw [tone_length 2400 9600 (by decide)]; rfl

/-- C6, for slices shorter than `2^31` bytes, the range in which the `int`
counter of the byte loop does not overflow.  `write_block(d, L, short_header)`
with `L` the length of `d` returns and appends the 2400 Hz square wave of `P`
samples followed directly by the frames of `d[0] .. d[L-1]` in order, where
`P = 19200 * 500 / 1000 = 9600` for a non-zero `short_header` and
`P = 19200 * 2000 / 1000 = 38400` otherwise; the block has `P + 192 * L`
samples. -/
theorem write_block_samples (f : FILE) (d : List Nat) (short_header : Int)
    (_hL : d.length < 2 ^ 31) :
    (write_block f d d.length short_header
      = some (f ++ (tone 2400 (if short_header ≠ 0 then 9600 else 38400)
          ++ d.flatMap byte_frame))) ∧
    (∀ (g : FILE) (n : Int), write_square_wave g 2400 n = some (g ++ tone 2400 n)) ∧
    (∀ (g : FILE) (b : Nat), write_byte g b = some (g ++ byte_frame b)) ∧
    (tone 2400 (if short_header ≠ 0 then 9600 else 38400) ++ d.flatMap byte_frame).length
      = (if short_header ≠ 0 then 9600 else 38400) + 192 * d.length ∧
    19200 * 500 / 1000 = 9600 ∧ 19200 * 2000 / 1000 = 38400 := by
  refine ⟨?_, fun g n => write_square_wave_some g 2400 n (by decide),
    fun g b => write_byte_some g b, ?_, by decide, by decide⟩
  · have h := write_block_eq f d d.length short_header (Nat.le_refl _)
    rw [List.take_length] at h
    exact h
  · rw [List.length_append, byte_frames_length]
    by_cases hs : short_header ≠ 0
    · simp only [if_pos hs, tone_short_length]
    · simp only [if_neg hs, tone_long_length]

/-- C6 at the three byte slice `[1, 2, 3]` with a short header. -/
theorem write_block_samples_witness :
    (write_block [] [1, 2, 3] [1, 2, 3].length 1
      = some ([] ++ (tone 2400 (if (1 : Int) ≠ 0 then 9600 else 38400)
          ++ [1, 2, 3].flatMap byte_frame))) ∧
    (∀ (g : FILE) (n : Int), write_square_wave g 2400 n = some (g ++ tone 2400 n)) ∧
    (∀ (g : FILE) (b : Nat), write_byte g b = some (g ++ byte_frame b)) ∧
    (tone 2400 (if (1 : Int) ≠ 0 then 9600 else 38400) ++ [1, 2, 3].flatMap byte_frame).length
      = (if (1 : Int) ≠ 0 then 9600 else 38400) + 192 * [1, 2, 3].length ∧
    19200 * 500 / 1000 = 9600 ∧ 19200 * 2000 / 1000 = 38400 :=
  write_block_samples [] [1, 2, 3] 1 (by decide)

/-! ## is_basic_format -/

theorem is_basic_format_loop_spec (buf : List Nat) (k : Nat) :
    ∀ i : Nat, i + k ≤ buf.length →
      (is_basic_format_loop buf k i = some 1
        ∧ ∀ j : Nat, i ≤ j → j < i + k → buf[j]? = some 0xD3)
      ∨ (is_basic_format_loop buf k i = some 0
        ∧ ∃ j : Nat, i ≤ j ∧ j < i + k ∧ buf[j]? ≠ some 0xD3) := by
  induction k with
  | zero =>
    intro i _
    left
    refine ⟨rfl, ?_⟩
    intro j h1 h2
    omega
  | succ k ih =>
    intro i hi
    have hlt : i < buf.length := by omega
    have hget : buf[i]? = some buf[i] := List.getElem?_eq_getElem hlt
    by_cases hb : buf[i] = 0xD3
    · have hstep : is_basic_format_loop buf (k + 1) i = is_basic_format_loop buf k (i + 1) := by
        simp only [is_basic_format_loop, hget, hb]
        rfl
      rcases ih (i + 1) (by omega) with ⟨h1, h2⟩ | ⟨h1, j, hj1, hj2, hj3⟩
      · left
        refine ⟨by rw [hstep, h1], ?_⟩
        intro j hj1 hj2
        by_cases hji : j = i
        · subst hji; rw [hget, hb]
        · exact h2 j (by omega) (by omega)
      · right
        exact ⟨by rw [hstep, h1], j, by omega, by omega, hj3⟩
    · right
      refine ⟨?_, i, Nat.le_refl i, by omega, ?_⟩
      · have hne : buf[i] ≠ BASIC_HEADER_BIN := hb
        simp only [is_basic_format_loop, hget, if_pos hne]
      · rw [hget]
        intro h
        exact hb (Option.some.inj h)

theorem is_basic_format_cases (buf : List Nat) :
    (is_basic_format buf buf.length = some 1
      ∧ 16 ≤ buf.length ∧ ∀ i : Nat, i < 10 → buf[i]? = some 0xD3)
    ∨ (is_basic_format buf buf.length = some 0
      ∧ ¬ (16 ≤ buf.length ∧ ∀ i : Nat, i < 10 → buf[i]? = some 0xD3)) := by
  by_cases hsz : buf.length < BASIC_HEADER_SIZE
  · right
    refine ⟨by simp only [is_basic_format, if_pos hsz], ?_⟩
    intro h
    have h16 : 16 ≤ buf.length := h.1
    have hlt : buf.length < 16 := hsz
    omega
  · have h16 : 16 ≤ buf.length := Nat.le_of_not_lt hsz
    have he : is_basic_format buf buf.length = is_basic_format_loop buf 10 0 := by
      simp only [is_basic_format, if_neg hsz]
      rfl
    rcases is_basic_format_loop_spec buf 10 0 (by omega) with ⟨h1, h2⟩ | ⟨h1, j, _, hj2, hj3⟩
    · left
      exact ⟨by rw [he, h1], h16, fun i hi => h2 i (Nat.zero_le i) (by omega)⟩
    · right
      refine ⟨by rw [he, h1], ?_⟩
      intro h
      exact hj3 (h.2 j (by omega))

/-- C7.  For a buffer `buf` of length `n`, `is_basic_format(buf, n)` returns 1
or 0, never reads outside the buffer, and returns 1 if and only if `n >= 16`
and each of `buf[0] .. buf[9]` is `0xD3`; two buffers of at least 16 bytes
with the same first 10 bytes get the same answer, whatever follows.  Ten
`0xD3` followed by 6 bytes are accepted, ten `0xD3` followed by 5 bytes are
not. -/
theorem is_basic_format_iff (buf : List Nat) :
    (is_basic_format buf buf.length = some 1 ∨ is_basic_format buf buf.length = some 0) ∧
    (is_basic_format buf buf.length = some 1
      ↔ 16 ≤ buf.length ∧ ∀ i : Nat, i < 10 → buf[i]? = some 0xD3) ∧
    (∀ other : List Nat, 16 ≤ buf.length → 16 ≤ other.length →
      other.take 10 = buf.take 10 →
      is_basic_format other other.length = is_basic_format buf buf.length) ∧
    (∀ a b c d e g : Nat,
      is_basic_format (List.replicate 10 0xD3 ++ [a, b, c, d, e, g]) 16 = some 1) ∧
    (∀ a b c d e : Nat,
      is_basic_format (List.replicate 10 0xD3 ++ [a, b, c, d, e]) 15 = some 0) := by
  have hiff : ∀ l : List Nat, is_basic_format l l.length = some 1
      ↔ 16 ≤ l.length ∧ ∀ i : Nat, i < 10 → l[i]? = some 0xD3 := by
    intro l
    rcases is_basic_format_cases l with ⟨h1, h2⟩ | ⟨h1, h2⟩
    · exact ⟨fun _ => h2, fun _ => h1⟩
    · constructor
      · intro h; rw [h1] at h; exact absurd h (by decide)
      · intro h; exact absurd h h2
  refine ⟨?_, hiff buf, ?_, ?_, ?_⟩
  · rcases is_basic_format_cases buf with ⟨h1, _⟩ | ⟨h1, _⟩
    · exact Or.inl h1
    · exact Or.inr h1
  · intro other hb ho ht
    have key : ∀ i : Nat, i < 10 → other[i]? = buf[i]? := by
      intro i hi
      have h1 : (other.take 10)[i]? = other[i]? := by rw [List.getElem?_take, if_pos hi]
      have h2 : (buf.take 10)[i]? = buf[i]? := by rw [List.getElem?_take, if_pos hi]
      rw [← h1, ← h2, ht]
    rcases is_basic_format_cases buf with ⟨h1, _, h3⟩ | ⟨h1, h2⟩
    · rw [h1]
      exact (hiff other).2 ⟨ho, fun i hi => by rw [key i hi]; exact h3 i hi⟩
    · rw [h1]
      rcases is_basic_format_cases other with ⟨_, _, h5⟩ | ⟨h4, _⟩
      · exact absurd ⟨hb, fun i hi => by rw [← key i hi]; exact h5 i hi⟩ h2
      · exact h4
  · intro a b c d e g
    rfl
  · intro a b c d e
    rfl

/-! ## The conversion step of main -/

theorem main_of_binary (buf : List Nat) (h : is_basic_format buf buf.length = some 0) :
    main buf = write_block [] buf buf.length 0 := by
  simp only [main, h]
  rfl

theorem main_of_basic (buf : List Nat) (h : is_basic_format buf buf.length = some 1) :
    main buf =
      match write_block [] buf 16 0 with
      | none => none
      | some f1 =>
        if buf.length > 16 then write_block f1 (buf.drop 16) (buf.length - 16) 1 else some f1 := by
  simp only [main, h]
  rfl

/-- C8, for buffers shorter than `2^31` bytes, the range in which the `int`
counter of the byte loop does not overflow.  For a buffer of `N` bytes that
`is_basic_format` rejects, the conversion is the single call
`write_block(buf, N, 0)`: the payload is the 38400 preamble samples of the
2400 Hz tone followed by the frames of all `N` bytes in order,
`38400 + N * (12 * 16) = 38400 + 192 * N` samples in all. -/
theorem main_binary_data (buf : List Nat) (h : is_basic_format buf buf.length = some 0)
    (_hN : buf.length < 2 ^ 31) :
    main buf = write_block [] buf buf.length 0 ∧
    main buf = some (tone 2400 38400 ++ buf.flatMap byte_frame) ∧
    (tone 2400 38400).length = 38400 ∧
    ∃ payload : List Nat, main buf = some payload ∧
      payload.length = 38400 + buf.length * (12 * 16) ∧
      payload.length = 38400 + 192 * buf.length := by
  have hw := write_block_long [] buf buf.length (Nat.le_refl _)
  rw [List.take_length, List.nil_append] at hw
  have hm : main buf = some (tone 2400 38400 ++ buf.flatMap byte_frame) := by
    rw [main_of_binary buf h, hw]
  have hl : (tone 2400 38400 ++ buf.flatMap byte_frame).length = 38400 + 192 * buf.length := by
    rw [List.length_append, byte_frames_length, tone_long_length]
  refine ⟨main_of_binary buf h, hm, tone_long_length, _, hm, ?_, hl⟩
  rw [hl]
  omega

/-- C8 at the three byte buffer `[1, 2, 3]`, which is too short to be BASIC. -/
theorem main_binary_data_witness :
    main [1, 2, 3] = write_block [] [1, 2, 3] [1, 2, 3].length 0 ∧
    main [1, 2, 3] = some (tone 2400 38400 ++ [1, 2, 3].flatMap byte_frame) ∧
    (tone 2400 38400).length = 38400 ∧
    ∃ payload : List Nat, main [1, 2, 3] = some payload ∧
      payload.length = 38400 + [1, 2, 3].length * (12 * 16) ∧
      payload.length = 38400 + 192 * [1, 2, 3].length :=
  main_binary_data [1, 2, 3] (by decide) (by decide)

/-- C9, for buffers whose second slice is shorter than `2^31` bytes, the
range in which the `int` counter of the byte loop does not overflow.  For a
buffer of `N >= 17` bytes that `is_basic_format` accepts, the conversion is
two blocks in this order: `write_block(buf, 16, 0)`, the long preamble of
38400 samples and the frames of bytes `0 .. 15`, then
`write_block(buf + 16, N - 16, 1)`, the short preamble of 9600 samples and
the frames of bytes `16 .. N-1`.  The payload has
`38400 + 16 * 192 + 9600 + (N - 16) * 192 = 48000 + 192 * N` samples. -/
theorem main_basic_two_blocks (buf : List Nat) (hN : 17 ≤ buf.length)
    (h : is_basic_format buf buf.length = some 1) (_hS : buf.length - 16 < 2 ^ 31) :
    ∃ first : List Nat,
      write_block [] buf 16 0 = some first ∧
      first = tone 2400 38400 ++ (buf.take 16).flatMap byte_frame ∧
      main buf = write_block first (buf.drop 16) (buf.length - 16) 1 ∧
      main buf = some (first ++ (tone 2400 9600 ++ (buf.drop 16).flatMap byte_frame)) ∧
      (tone 2400 38400).length = 38400 ∧ (tone 2400 9600).length = 9600 ∧
      ∃ payload : List Nat, main buf = some payload ∧
        payload.length = 38400 + 16 * 192 + 9600 + (buf.length - 16) * 192 ∧
        payload.length = 48000 + 192 * buf.length := by
  have h1 : write_block [] buf 16 0
      = some (tone 2400 38400 ++ (buf.take 16).flatMap byte_frame) := by
    rw [write_block_long [] buf 16 (by omega), List.nil_append]
  have hdl : (buf.drop 16).length = buf.length - 16 := List.length_drop 16 buf
  have h2 : ∀ g : FILE, write_block g (buf.drop 16) (buf.length - 16) 1
      = some (g ++ (tone 2400 9600 ++ (buf.drop 16).flatMap byte_frame)) := by
    intro g
    rw [write_block_short g (buf.drop 16) (buf.length - 16) (by omega)]
    rw [← hdl, List.take_length]
  have hgt : buf.length > 16 := by omega
  have hm : main buf = write_block (tone 2400 38400 ++ (buf.take 16).flatMap byte_frame)
      (buf.drop 16) (buf.length - 16) 1 := by
    rw [main_of_basic buf h, h1]
    simp only [if_pos hgt]
  have hm2 := hm
  rw [h2] at hm2
  have hl : (tone 2400 38400 ++ (buf.take 16).flatMap byte_frame
      ++ (tone 2400 9600 ++ (buf.drop 16).flatMap byte_frame)).length
      = 48000 + 192 * buf.length := by
    simp only [List.length_append, byte_frames_length, tone_long_length, tone_short_length,
      List.length_take, List.length_drop]
    omega
  refine ⟨_, h1, rfl, hm, hm2, tone_long_length, tone_short_length, _, hm2, ?_, hl⟩
  rw [hl]
  omega

/-- C9 at a 17 byte buffer: ten `0xD3`, the name `FOOBAR`, one body byte. -/
theorem main_basic_two_blocks_witness :
    ∃ first : List Nat,
      write_block [] (List.replicate 10 0xD3 ++ [70, 79, 79, 66, 65, 82, 7]) 16 0 = some first ∧
      first = tone 2400 38400
        ++ ((List.replicate 10 0xD3 ++ [70, 79, 79, 66, 65, 82, 7]).take 16).flatMap byte_frame ∧
      main (List.replicate 10 0xD3 ++ [70, 79, 79, 66, 65, 82, 7])
        = write_block first ((List.replicate 10 0xD3 ++ [70, 79, 79, 66, 65, 82, 7]).drop 16)
            ((List.replicate 10 0xD3 ++ [70, 79, 79, 66, 65, 82, 7]).length - 16) 1 ∧
      main (List.replicate 10 0xD3 ++ [70, 79, 79, 66, 65, 82, 7])
        = some (first ++ (tone 2400 9600
            ++ ((List.replicate 10 0xD3 ++ [70, 79, 79, 66, 65, 82, 7]).drop 16).flatMap
                byte_frame)) ∧
      (tone 2400 38400).length = 38400 ∧ (tone 2400 9600).length = 9600 ∧
      ∃ payload : List Nat,
        main (List.replicate 10 0xD3 ++ [70, 79, 79, 66, 65, 82, 7]) = some payload ∧
        payload.length = 38400 + 16 * 192 + 9600
          + ((List.replicate 10 0xD3 ++ [70, 79, 79, 66, 65, 82, 7]).length - 16) * 192 ∧
        payload.length
          = 48000 + 192 * (List.replicate 10 0xD3 ++ [70, 79, 79, 66, 65, 82, 7]).length :=
  main_basic_two_blocks (List.replicate 10 0xD3 ++ [70, 79, 79, 66, 65, 82, 7])
    (by decide) (by decide) (by decide)

/-- C10.  For a buffer of exactly 16 bytes that `is_basic_format` accepts, the
conversion is the single call `write_block(buf, 16, 0)`: the long preamble of
38400 samples and the 16 frames, and nothing after them (no second block and
no short preamble); the payload has `38400 + 16 * 12 * 16 = 41472`
samples. -/
theorem main_basic_one_block (buf : List Nat) (h16 : buf.length = 16)
    (h : is_basic_format buf buf.length = some 1) :
    main buf = write_block [] buf 16 0 ∧
    main buf = some (tone 2400 38400 ++ buf.flatMap byte_frame) ∧
    (tone 2400 38400).length = 38400 ∧
    (buf.flatMap byte_frame).length = 16 * 192 ∧
    ∃ payload : List Nat, main buf = some payload ∧
      payload.length = 38400 + 16 * 12 * 16 ∧ payload.length = 41472 := by
  have h1 : write_block [] buf 16 0 = some (tone 2400 38400 ++ buf.flatMap byte_frame) := by
    rw [write_block_long [] buf 16 (by omega), ← h16, List.take_length, List.nil_append]
  have hle : ¬ (buf.length > 16) := by omega
  have hm : main buf = write_block [] buf 16 0 := by
    rw [main_of_basic buf h, h1]
    simp only [if_neg hle]
  have hf : (buf.flatMap byte_frame).length = 16 * 192 := by
    rw [byte_frames_length, h16]
  have hl : (tone 2400 38400 ++ buf.flatMap byte_frame).length = 41472 := by
    rw [List.length_append, hf, tone_long_length]
  exact ⟨hm, by rw [hm, h1], tone_long_length, hf, _, by rw [hm, h1], by rw [hl], hl⟩

/-- C10 at the 16 byte buffer made of ten `0xD3` and the name `FOOBAR`. -/
theorem main_basic_one_block_witness :
    main (List.replicate 10 0xD3 ++ [70, 79, 79, 66, 65, 82])
      = write_block [] (List.replicate 10 0xD3 ++ [70, 79, 79, 66, 65, 82]) 16 0 ∧
    main (List.replicate 10 0xD3 ++ [70, 79, 79, 66, 65, 82])
      = some (tone 2400 38400
          ++ (List.replicate 10 0xD3 ++ [70, 79, 79, 66, 65, 82]).flatMap byte_frame) ∧
    (tone 2400 38400).length = 38400 ∧
    ((List.replicate 10 0xD3 ++ [70, 79, 79, 66, 65, 82]).flatMap byte_frame).length
      = 16 * 192 ∧
    ∃ payload : List Nat,
      main (List.replicate 10 0xD3 ++ [70, 79, 79, 66, 65, 82]) = some payload ∧
      payload.length = 38400 + 16 * 12 * 16 ∧ payload.length = 41472 :=
  main_basic_one_block (List.replicate 10 0xD3 ++ [70, 79, 79, 66, 65, 82])
    (by decide) (by decide)

/-! ## write_wav_header -/

theorem write_wav_header_eq (f : FILE) (n : Nat) :
    write_wav_header f n = f ++ wav_header n := by
  simp only [wav_header, write_wav_header, List.nil_append]

theorem wav_header_eq (n : Nat) :
    wav_header n =
      [0x52, 0x49, 0x46, 0x46] ++ int_to_le32enc ((n + 36) % 2 ^ 32)
        ++ [0x57, 0x41, 0x56, 0x45] ++ [0x66, 0x6D, 0x74, 0x20]
        ++ [16, 0, 0, 0] ++ [1, 0] ++ [1, 0]
        ++ [0x00, 0x4B, 0, 0] ++ [0x00, 0x4B, 0, 0] ++ [1, 0] ++ [8, 0]
        ++ [0x64, 0x61, 0x74, 0x61] ++ int_to_le32enc n := by
  rfl

theorem and_ff (x : Nat) : x &&& 0xff = x % 256 := Nat.and_pow_two_sub_one_eq_mod x 8

theorem int_to_le32enc_bytes (v : Nat) :
    int_to_le32enc v = [v % 256, v / 256 % 256, v / 65536 % 256, v / 16777216 % 256] := by
  simp only [int_to_le32enc, and_ff, Nat.shiftRight_eq_div_pow]

theorem le_value_int_to_le32enc (v : Nat) : le_value (int_to_le32enc v) = v % 2 ^ 32 := by
  rw [int_to_le32enc_bytes]
  simp only [le_value]
  omega

/-- C11.  For every sample count `write_wav_header` writes exactly 44 bytes:
`RIFF` at 0-3, `WAVE` at 8-11, `fmt ` at 12-15, 16 at 16-19, 1 at 20-21, 1 at
22-23, 19200 at 24-27 and at 28-31 (little-endian), 1 at 32-33, 8 at 34-35,
`data` at 36-39.  The bytes at the offsets 0-3 and 8-39, that is everywhere
but at 4-7 and 40-43, are the same for all sample counts. -/
theorem write_wav_header_layout (f : FILE) (n : Nat) :
    ∃ hdr : List Nat, write_wav_header f n = f ++ hdr ∧ hdr.length = 44 ∧
      hdr.take 4 = "RIFF".toList.map Char.toNat ∧
      (hdr.drop 8).take 4 = "WAVE".toList.map Char.toNat ∧
      (hdr.drop 12).take 4 = "fmt ".toList.map Char.toNat ∧
      (hdr.drop 16).take 4 = [16, 0, 0, 0] ∧ le_value ((hdr.drop 16).take 4) = 16 ∧
      (hdr.drop 20).take 2 = [1, 0] ∧ le_value ((hdr.drop 20).take 2) = 1 ∧
      (hdr.drop 22).take 2 = [1, 0] ∧ le_value ((hdr.drop 22).take 2) = 1 ∧
      (hdr.drop 24).take 4 = int_to_le32enc 19200 ∧ le_value ((hdr.drop 24).take 4) = 19200 ∧
      (hdr.drop 28).take 4 = int_to_le32enc 19200 ∧ le_value ((hdr.drop 28).take 4) = 19200 ∧
      (hdr.drop 32).take 2 = [1, 0] ∧ le_value ((hdr.drop 32).take 2) = 1 ∧
      (hdr.drop 34).take 2 = [8, 0] ∧ le_value ((hdr.drop 34).take 2) = 8 ∧
      (hdr.drop 36).take 4 = "data".toList.map Char.toNat ∧
      ∀ m : Nat, (wav_header m).take 4 = hdr.take 4 ∧
        ((wav_header m).drop 8).take 32 = (hdr.drop 8).take 32 := by
  have e19200 : le_value (int_to_le32enc 19200) = 19200 := by
    rw [le_value_int_to_le32enc]
    decide
  have e24 : ((wav_header n).drop 24).take 4 = int_to_le32enc 19200 := rfl
  have e28 : ((wav_header n).drop 28).take 4 = int_to_le32enc 19200 := rfl
  refine ⟨wav_header n, write_wav_header_eq f n, rfl, rfl, rfl, rfl, rfl, rfl, rfl, rfl, rfl, rfl,
    e24, by rw [e24, e19200], e28, by rw [e28, e19200], rfl, rfl, rfl, rfl, rfl, ?_⟩
  intro m
  exact ⟨rfl, rfl⟩

/-- C12.  When `n + 36 < 2^32` the header written for `n` samples holds at
40-43 the little-endian encoding of `n` and at 4-7 that of `n + 36`, byte `i`
of an encoding being `(value >> 8*i) & 0xFF`, so that the bytes weighted by
`256^i` sum to the value.  For `n = 0` the two fields are 36 and 0. -/
theorem write_wav_header_sizes (f : FILE) (n : Nat) (hn : n + 36 < 2 ^ 32) :
    ∃ hdr : List Nat, write_wav_header f n = f ++ hdr ∧
      (hdr.drop 40).take 4 = int_to_le32enc n ∧
      (hdr.drop 4).take 4 = int_to_le32enc (n + 36) ∧
      (∀ v : Nat, int_to_le32enc v
        = [(v >>> (8 * 0)) &&& 0xFF, (v >>> (8 * 1)) &&& 0xFF,
           (v >>> (8 * 2)) &&& 0xFF, (v >>> (8 * 3)) &&& 0xFF]) ∧
      le_value ((hdr.drop 40).take 4) = n ∧
      le_value ((hdr.drop 4).take 4) = n + 36 ∧
      (wav_header 0).drop 4 = [36, 0, 0, 0] ++ ((wav_header 0).drop 8) ∧
      le_value (((wav_header 0).drop 4).take 4) = 36 ∧
      (wav_header 0).drop 40 = [0, 0, 0, 0] ∧
      le_value ((wav_header 0).drop 40) = 0 := by
  have h4 : ((wav_header n).drop 4).take 4 = int_to_le32enc (n + 36) := by
    have e : ((wav_header n).drop 4).take 4 = int_to_le32enc ((n + 36) % 2 ^ 32) := rfl
    rw [e, Nat.mod_eq_of_lt hn]
  have h40 : ((wav_header n).drop 40).take 4 = int_to_le32enc n := rfl
  refine ⟨wav_header n, write_wav_header_eq f n, h40, h4, fun v => rfl, ?_, ?_, by decide,
    by decide, by decide, by decide⟩
  · rw [h40, le_value_int_to_le32enc]
    omega
  · rw [h4, le_value_int_to_le32enc]
    omega

/-- C12 at 41472 samples, the payload size of a 16 byte BASIC image. -/
theorem write_wav_header_sizes_witness :
    ∃ hdr : List Nat, write_wav_header [] 41472 = [] ++ hdr ∧
      (hdr.drop 40).take 4 = int_to_le32enc 41472 ∧
      (hdr.drop 4).take 4 = int_to_le32enc (41472 + 36) ∧
      (∀ v : Nat, int_to_le32enc v
        = [(v >>> (8 * 0)) &&& 0xFF, (v >>> (8 * 1)) &&& 0xFF,
           (v >>> (8 * 2)) &&& 0xFF, (v >>> (8 * 3)) &&& 0xFF]) ∧
      le_value ((hdr.drop 40).take 4) = 41472 ∧
      le_value ((hdr.drop 4).take 4) = 41472 + 36 ∧
      (wav_header 0).drop 4 = [36, 0, 0, 0] ++ ((wav_header 0).drop 8) ∧
      le_value (((wav_header 0).drop 4).take 4) = 36 ∧
      (wav_header 0).drop 40 = [0, 0, 0, 0] ∧
      le_value ((wav_header 0).drop 40) = 0 :=
  write_wav_header_sizes [] 41472 (by decide)

/-! ## The whole payload -/

theorem byte_frames_append (a b : List Nat) :
    (a ++ b).flatMap byte_frame = a.flatMap byte_frame ++ b.flatMap byte_frame :=
  List.flatMap_append a b byte_frame

theorem main_binary_eq (buf : List Nat) (h : is_basic_format buf buf.length = some 0) :
    main buf = some (tone 2400 38400 ++ buf.flatMap byte_frame) := by
  have hw := write_block_long [] buf buf.length (Nat.le_refl _)
  rw [List.take_length, List.nil_append] at hw
  rw [main_of_binary buf h, hw]

theorem main_basic16_eq (buf : List Nat) (h16 : buf.length = 16)
    (h : is_basic_format buf buf.length = some 1) :
    main buf = some (tone 2400 38400 ++ buf.flatMap byte_frame) := by
  have h1 : write_block [] buf 16 0 = some (tone 2400 38400 ++ buf.flatMap byte_frame) := by
    rw [write_block_long [] buf 16 (by omega), ← h16, List.take_length, List.nil_append]
  have hle : ¬ (buf.length > 16) := by omega
  rw [main_of_basic buf h, h1]
  simp only [if_neg hle]

theorem main_basic17_eq (buf : List Nat) (hN : 17 ≤ buf.length)
    (h : is_basic_format buf buf.length = some 1) :
    main buf = some (tone 2400 38400 ++ (buf.take 16).flatMap byte_frame
      ++ (tone 2400 9600 ++ (buf.drop 16).flatMap byte_frame)) := by
  have h1 : write_block [] buf 16 0
      = some (tone 2400 38400 ++ (buf.take 16).flatMap byte_frame) := by
    rw [write_block_long [] buf 16 (by omega), List.nil_append]
  have hdl : (buf.drop 16).length = buf.length - 16 := List.length_drop 16 buf
  have hgt : buf.length > 16 := by omega
  rw [main_of_basic buf h, h1]
  simp only [if_pos hgt]
  rw [write_block_short _ (buf.drop 16) (buf.length - 16) (by omega), ← hdl, List.take_length]

/-- The three shapes of the payload. -/
theorem main_cases (buf : List Nat) :
    (is_basic_format buf buf.length = some 0
      ∧ main buf = some (tone 2400 38400 ++ buf.flatMap byte_frame))
    ∨ (is_basic_format buf buf.length = some 1 ∧ buf.length = 16
      ∧ main buf = some (tone 2400 38400 ++ buf.flatMap byte_frame))
    ∨ (is_basic_format buf buf.length = some 1 ∧ 17 ≤ buf.length
      ∧ main buf = some (tone 2400 38400 ++ (buf.take 16).flatMap byte_frame
          ++ (tone 2400 9600 ++ (buf.drop 16).flatMap byte_frame))) := by
  rcases is_basic_format_cases buf with ⟨h1, h16, _⟩ | ⟨h0, _⟩
  · by_cases hN : buf.length = 16
    · exact Or.inr (Or.inl ⟨h1, hN, main_basic16_eq buf hN h1⟩)
    · have h17 : 17 ≤ buf.length := by omega
      exact Or.inr (Or.inr ⟨h1, h17, main_basic17_eq buf h17 h1⟩)
  · exact Or.inl ⟨h0, main_binary_eq buf h0⟩

theorem tone_long_closed :
    tone 2400 38400 = (List.range 38400).map (fun i => level (i / 4)) := by
  have h := tone_closed 2400 38400 (by decide) (by decide)
  exact h

/-- C13.  The empty buffer is rejected by `is_basic_format` (result 0) and
converted by the single call `write_block(buf, 0, 0)`: the payload is the long
preamble alone, 38400 samples of the 2400 Hz square wave (4 high, 4 low,
repeated) and nothing else. -/
theorem main_empty :
    is_basic_format [] 0 = some 0 ∧
    main_calls [] = some [(0, 0, 0)] ∧
    main [] = write_block [] [] 0 0 ∧
    main [] = some (tone 2400 38400) ∧
    (∀ g : FILE, write_square_wave g 2400 38400 = some (g ++ tone 2400 38400)) ∧
    (tone 2400 38400).length = 38400 ∧
    tone 2400 38400 = (List.range 38400).map (fun i => if (i / 4) % 2 = 0 then 0xFF else 0x00) := by
  have h0 : is_basic_format [] ([] : List Nat).length = some 0 := by decide
  have hm := main_binary_eq [] h0
  simp only [List.flatMap_nil, List.append_nil] at hm
  exact ⟨by decide, by decide, main_of_binary [] h0, hm,
    fun g => write_square_wave_some g 2400 38400 (by decide), tone_long_length, tone_long_closed⟩

/-! ## The calls of write_block -/

theorem main_calls_binary (buf : List Nat) (h : is_basic_format buf buf.length = some 0) :
    main_calls buf = some [(0, buf.length, 0)] := by
  simp only [main_calls, h]
  rfl

theorem main_calls_basic16 (buf : List Nat) (h16 : buf.length = 16)
    (h : is_basic_format buf buf.length = some 1) :
    main_calls buf = some [(0, 16, 0)] := by
  have hle : ¬ (buf.length > BASIC_HEADER_SIZE) := by
    show ¬ (buf.length > 16)
    omega
  have h1 : (1 : Int) ≠ 0 := by decide
  simp only [main_calls, h, if_pos h1, if_neg hle]

theorem main_calls_basic17 (buf : List Nat) (hN : 17 ≤ buf.length)
    (h : is_basic_format buf buf.length = some 1) :
    main_calls buf = some [(0, 16, 0), (16, buf.length - 16, 1)] := by
  have hgt : buf.length > BASIC_HEADER_SIZE := by
    show buf.length > 16
    omega
  have h1 : (1 : Int) ≠ 0 := by decide
  simp only [main_calls, h, if_pos h1, if_pos hgt]

/-- C14.  For every input buffer of `N` bytes the `write_block` calls of
`main` are: one call on `[0, N)` when `is_basic_format` returns 0, one call on
`[0, 16)` for a BASIC buffer of 16 bytes, and the two calls on `[0, 16)` and
`[16, N)` for a longer BASIC buffer.  `main` is the run of these calls; each
slice lies inside the buffer, each slice ends before the next one starts, and
the slices concatenated in call order are the buffer, so that every input
byte is handed to the framing exactly once and in its original order.  When
moreover every slice is shorter than `2^31` bytes, the range in which the
`int` counter of the byte loop does not overflow, the payload is, for each
call in order, its preamble followed by the frames of its slice. -/
theorem main_calls_partition (buf : List Nat) :
    ∃ calls : List (Nat × Nat × Int),
      main_calls buf = some calls ∧
      main buf = run_calls buf calls [] ∧
      ((is_basic_format buf buf.length = some 0 ∧ calls = [(0, buf.length, 0)])
        ∨ (is_basic_format buf buf.length = some 1 ∧ buf.length = 16 ∧ calls = [(0, 16, 0)])
        ∨ (is_basic_format buf buf.length = some 1 ∧ 17 ≤ buf.length
            ∧ calls = [(0, 16, 0), (16, buf.length - 16, 1)])) ∧
      (∀ c ∈ calls, c.1 + c.2.1 ≤ buf.length) ∧
      List.Pairwise (fun c d => c.1 + c.2.1 ≤ d.1) calls ∧
      calls.flatMap (fun c => (buf.drop c.1).take c.2.1) = buf ∧
      ((∀ c ∈ calls, c.2.1 < 2 ^ 31) →
        main buf = some (calls.flatMap (fun c =>
          tone 2400 (if c.2.2 ≠ 0 then 9600 else 38400)
            ++ ((buf.drop c.1).take c.2.1).flatMap byte_frame))) := by
  have h10 : (1 : Int) ≠ 0 := by decide
  have h00 : ¬ ((0 : Int) ≠ 0) := by decide
  rcases main_cases buf with ⟨h0, hm⟩ | ⟨h1, h16, hm⟩ | ⟨h1, h17, hm⟩
  · have hw := write_block_long [] buf buf.length (Nat.le_refl _)
    rw [List.take_length, List.nil_append] at hw
    refine ⟨[(0, buf.length, 0)], main_calls_binary buf h0, ?_, Or.inl ⟨h0, rfl⟩, ?_, ?_, ?_, ?_⟩
    · simp only [run_calls, List.drop_zero, hw, hm]
    · intro c hc
      simp only [List.mem_singleton] at hc
      subst hc
      simp
    · simp
    · simp
    · intro _
      simp only [List.flatMap_cons, List.flatMap_nil, List.append_nil, List.drop_zero,
        List.take_length, if_neg h00, hm]
  · have hw : write_block [] buf 16 0 = some (tone 2400 38400 ++ buf.flatMap byte_frame) := by
      rw [write_block_long [] buf 16 (by omega), ← h16, List.take_length, List.nil_append]
    have ht : buf.take 16 = buf := by rw [← h16, List.take_length]
    refine ⟨[(0, 16, 0)], main_calls_basic16 buf h16 h1, ?_,
      Or.inr (Or.inl ⟨h1, h16, rfl⟩), ?_, ?_, ?_, ?_⟩
    · simp only [run_calls, List.drop_zero, hw, hm]
    · intro c hc
      simp only [List.mem_singleton] at hc
      subst hc
      simp [h16]
    · simp
    · simp [ht]
    · intro _
      simp only [List.flatMap_cons, List.flatMap_nil, List.append_nil, List.drop_zero,
        ht, if_neg h00, hm]
  · have hw1 : write_block [] buf 16 0
        = some (tone 2400 38400 ++ (buf.take 16).flatMap byte_frame) := by
      rw [write_block_long [] buf 16 (by omega), List.nil_append]
    have hdl : (buf.drop 16).length = buf.length - 16 := List.length_drop 16 buf
    have ht : (buf.drop 16).take (buf.length - 16) = buf.drop 16 := by
      rw [← hdl, List.take_length]
    have hw2 : ∀ g : FILE, write_block g (buf.drop 16) (buf.length - 16) 1
        = some (g ++ (tone 2400 9600 ++ (buf.drop 16).flatMap byte_frame)) := by
      intro g
      rw [write_block_short g (buf.drop 16) (buf.length - 16) (by omega), ht]
    refine ⟨[(0, 16, 0), (16, buf.length - 16, 1)], main_calls_basic17 buf h17 h1, ?_,
      Or.inr (Or.inr ⟨h1, h17, rfl⟩), ?_, ?_, ?_, ?_⟩
    · simp only [run_calls, List.drop_zero, hw1, hw2, hm]
    · intro c hc
      simp only [List.mem_cons, List.mem_singleton, List.not_mem_nil, or_false] at hc
      rcases hc with hc | hc
      · subst hc
        show 0 + 16 ≤ buf.length
        omega
      · subst hc
        show 16 + (buf.length - 16) ≤ buf.length
        omega
    · simp
    · simp only [List.flatMap_cons, List.flatMap_nil, List.append_nil, List.drop_zero, ht,
        List.take_append_drop]
    · intro _
      simp only [List.flatMap_cons, List.flatMap_nil, List.append_nil, List.drop_zero, ht,
        if_neg h00, if_pos h10, hm, List.append_assoc]

/-! ## Sample values -/

theorem level_cases (q : Nat) : level q = 0x00 ∨ level q = 0xFF := by
  unfold level
  split
  · exact Or.inr rfl
  · exact Or.inl rfl

theorem tone_2400_mem (n : Int) : ∀ s ∈ tone 2400 n, s = 0x00 ∨ s = 0xFF := by
  intro s hs
  rw [tone_closed 2400 n (by decide) (by decide), List.mem_map] at hs
  rcases hs with ⟨i, _, rfl⟩
  exact level_cases _

theorem bit_wave_mem (bit : Int) : ∀ s ∈ bit_wave bit, s = 0x00 ∨ s = 0xFF := by
  intro s hs
  by_cases h : bit = 0
  · subst h
    rw [bit_wave_zero] at hs
    simp only [List.mem_append, List.mem_replicate] at hs
    rcases hs with ⟨_, h⟩ | ⟨_, h⟩
    · exact Or.inr h
    · exact Or.inl h
  · rw [bit_wave_nonzero bit h] at hs
    simp only [List.mem_append, List.mem_replicate] at hs
    rcases hs with ((⟨_, h⟩ | ⟨_, h⟩) | ⟨_, h⟩) | ⟨_, h⟩
    · exact Or.inr h
    · exact Or.inl h
    · exact Or.inr h
    · exact Or.inl h

theorem byte_frame_mem (b : Nat) : ∀ s ∈ byte_frame b, s = 0x00 ∨ s = 0xFF := by
  intro s hs
  rw [byte_frame_eq] at hs
  simp only [List.mem_append] at hs
  rcases hs with
    ((((((((((( h | h) | h) | h) | h) | h) | h) | h) | h) | h) | h) | h) <;>
    exact bit_wave_mem _ s h

theorem byte_frames_mem (d : List Nat) : ∀ s ∈ d.flatMap byte_frame, s = 0x00 ∨ s = 0xFF := by
  intro s hs
  rw [List.mem_flatMap] at hs
  rcases hs with ⟨b, _, hb⟩
  exact byte_frame_mem b s hb

/-- C15.  For every input buffer the conversion returns a payload, and every
sample of it, in the preambles and in the byte frames alike, is `0x00` or
`0xFF`. -/
theorem main_samples_two_levels (buf : List Nat) :
    ∃ payload : List Nat, main buf = some payload ∧
      ∀ s ∈ payload, s = 0x00 ∨ s = 0xFF := by
  rcases main_cases buf with ⟨_, hm⟩ | ⟨_, _, hm⟩ | ⟨_, _, hm⟩
  · refine ⟨_, hm, ?_⟩
    intro s hs
    rcases List.mem_append.1 hs with h | h
    · exact tone_2400_mem _ s h
    · exact byte_frames_mem _ s h
  · refine ⟨_, hm, ?_⟩
    intro s hs
    rcases List.mem_append.1 hs with h | h
    · exact tone_2400_mem _ s h
    · exact byte_frames_mem _ s h
  · refine ⟨_, hm, ?_⟩
    intro s hs
    simp only [List.mem_append] at hs
    rcases hs with (h | h) | (h | h)
    · exact tone_2400_mem _ s h
    · exact byte_frames_mem _ s h
    · exact tone_2400_mem _ s h
    · exact byte_frames_mem _ s h

/-! ## The preamble length -/

theorem write_block_header_samples (f : FILE) (data : List Nat) (len : Nat)
    (short_header : Int) :
    write_block f data len short_header =
      match write_square_wave f BIT1_FREQ
          (u32_to_int (header_samples
            (if short_header ≠ 0 then SHORT_HEADER_MSEC else LONG_HEADER_MSEC))) with
      | none => none
      | some f1 =>
        for_loop len
          (fun i g =>
            match data[i]? with
            | none => none
            | some b => write_byte g b)
          f1 := by
  rfl

/-- C16, as amended.  For every duration `ms` whose product `19200 * ms` fits
in 32 bits, the computed count is the floor of `19200 * ms / 1000`; it is
below the nominal count by `200 * (ms mod 5)` thousandths of a sample, which
is at most 0.8 sample and so within 19 samples; for the durations that
`write_block` uses, 500 ms and 2000 ms, nothing is lost. -/
theorem header_samples_loss (ms : Nat) (h : 19200 * ms < 2 ^ 32) :
    header_samples ms = 19200 * ms / 1000 ∧
    1000 * header_samples ms ≤ 19200 * ms ∧
    19200 * ms - 1000 * header_samples ms = 200 * (ms % 5) ∧
    19200 * ms - 1000 * header_samples ms ≤ 800 ∧
    19200 * ms - 1000 * header_samples ms ≤ 19 * 1000 ∧
    1000 * header_samples 500 = 19200 * 500 ∧ header_samples 500 = 9600 ∧
    1000 * header_samples 2000 = 19200 * 2000 ∧ header_samples 2000 = 38400 := by
  have e : header_samples ms = 19200 * ms / 1000 := by
    simp only [header_samples, Nat.mod_eq_of_lt h]
  refine ⟨e, ?_, ?_, ?_, ?_, by decide, by decide, by decide, by decide⟩ <;>
    rw [e] <;> omega

/-- The amended C16 at 4 ms, where the loss is largest: 76 samples are
computed for a nominal 76.8. -/
theorem header_samples_loss_witness :
    header_samples 4 = 19200 * 4 / 1000 ∧
    1000 * header_samples 4 ≤ 19200 * 4 ∧
    19200 * 4 - 1000 * header_samples 4 = 200 * (4 % 5) ∧
    19200 * 4 - 1000 * header_samples 4 ≤ 800 ∧
    19200 * 4 - 1000 * header_samples 4 ≤ 19 * 1000 ∧
    1000 * header_samples 500 = 19200 * 500 ∧ header_samples 500 = 9600 ∧
    1000 * header_samples 2000 = 19200 * 2000 ∧ header_samples 2000 = 38400 :=
  header_samples_loss 4 (by decide)

/-- C16 as stated fails.  No duration whose product fits in 32 bits loses as
much as one sample, let alone 19; and once the product wraps, as at
223697 ms, the computed count (15) is far more than 19 samples below the
nominal one (4294982). -/
theorem header_samples_loss_counterexample :
    (¬ ∃ ms : Nat, 19200 * ms < 2 ^ 32 ∧ 1000 ≤ 19200 * ms - 1000 * header_samples ms) ∧
    (223697 < 2 ^ 32 ∧ header_samples 223697 = 15 ∧ 19200 * 223697 / 1000 = 4294982) := by
  refine ⟨?_, by decide, by decide, by decide⟩
  rintro ⟨ms, h, hl⟩
  have e : header_samples ms = 19200 * ms / 1000 := by
    simp only [header_samples, Nat.mod_eq_of_lt h]
  rw [e] at hl
  omega

/-! ## The degenerate half-cycle -/

/-- With a half-cycle length of 0 the loop complements the level after every
sample. -/
theorem write_square_wave_loop_zero (k : Nat) :
    ∀ (q : Nat) (f : FILE),
      write_square_wave_loop 0 k 0 (level q) f
        = f ++ (List.range k).map (fun j => level (q + j)) := by
  induction k with
  | zero => intro q f; simp [write_square_wave_loop]
  | succ k ih =>
    intro q f
    have hc : (0 : Int) + 1 ≥ 0 := by decide
    rw [List.range_succ_eq_map]
    simp only [write_square_wave_loop, fwrite1, if_pos hc, not_u8_level, ih, List.map_cons,
      List.map_map, Nat.add_zero, List.append_assoc, List.singleton_append,
      List.append_cancel_left_eq, List.cons.injEq, true_and]
    apply List.map_congr_left
    intro j _
    have e : q + 1 + j = q + (j + 1) := by omega
    simp only [Function.comp, Nat.succ_eq_add_one, e]

theorem tone_degenerate (freq : Nat) (n : Int) (h1 : 19200 < 2 * freq) (h2 : 2 * freq < 2 ^ 32) :
    tone freq n = (List.range n.toNat).map level := by
  have hd : (freq * 2) % 2 ^ 32 = 2 * freq := by omega
  have hne : ¬ (2 * freq = 0) := by omega
  have hq : 19200 / (2 * freq) = 0 := Nat.div_eq_of_lt h1
  simp only [tone, emitted, write_square_wave, hd, if_neg hne, Option.getD_some, hq]
  have hl := write_square_wave_loop_zero n.toNat 0 []
  simp only [Nat.zero_add, List.nil_append] at hl
  exact hl

theorem tone_9600 (n : Int) : tone 9600 n = (List.range n.toNat).map level := by
  rw [tone_closed 9600 n (by decide) (by decide)]
  apply List.map_congr_left
  intro i _
  have e : i / (19200 / (2 * 9600)) = i := by
    have : 19200 / (2 * 9600) = 1 := by decide
    rw [this, Nat.div_one]
  rw [e]

theorem divisor_zero_iff (x : Nat) (hx : x < 2 ^ 32) :
    (x * 2) % 2 ^ 32 = 0 ↔ x = 0 ∨ x = 2 ^ 31 := by
  omega

/-- C20.  When `19200 < 2 * freq < 2^32` the half-cycle length is 0, yet
`write_square_wave` returns and appends exactly `n` samples, sample `i` being
`0xFF` for even `i` and `0x00` for odd `i`: the output for 9600 Hz, whose
half-cycle length is 1.  Among the 32 bit frequencies the divisor is zero, and
the call without result, exactly for 0 and `2^31`. -/
theorem write_square_wave_degenerate (g : FILE) (freq : Nat) (n : Int)
    (h1 : 19200 < 2 * freq) (h2 : 2 * freq < 2 ^ 32) :
    SAMPLE_RATE / ((freq * 2) % 2 ^ 32) = 0 ∧
    (∃ s : List Nat, write_square_wave g freq n = some (g ++ s) ∧ s.length = n.toNat ∧
      ∀ i : Nat, (i : Int) < n → s[i]? = some (if i % 2 = 0 then 0xFF else 0x00)) ∧
    write_square_wave g freq n = write_square_wave g 9600 n ∧
    SAMPLE_RATE / ((9600 * 2) % 2 ^ 32) = 1 ∧
    ∀ x : Nat, x < 2 ^ 32 →
      (((x * 2) % 2 ^ 32 = 0 ↔ x = 0 ∨ x = 2 ^ 31) ∧
       (write_square_wave g x n = none ↔ x = 0 ∨ x = 2 ^ 31)) := by
  have hd : (freq * 2) % 2 ^ 32 ≠ 0 := by omega
  have hd2 : (freq * 2) % 2 ^ 32 = 2 * freq := by omega
  refine ⟨?_, ⟨tone freq n, write_square_wave_some g freq n hd, tone_length freq n hd, ?_⟩,
    ?_, by decide, ?_⟩
  · rw [hd2]
    exact Nat.div_eq_of_lt h1
  · intro i hi
    have hi2 : i < n.toNat := by omega
    rw [tone_degenerate freq n h1 h2, List.getElem?_map, List.getElem?_range hi2]
    rfl
  · rw [write_square_wave_some g freq n hd, write_square_wave_some g 9600 n (by decide),
      tone_degenerate freq n h1 h2, tone_9600]
  · intro x hx
    refine ⟨divisor_zero_iff x hx, ?_⟩
    rw [← divisor_zero_iff x hx]
    constructor
    · intro hn
      by_contra hne
      rw [write_square_wave_some g x n hne] at hn
      exact absurd hn (by simp)
    · intro hz
      exact write_square_wave_none g x n hz

/-- C20 at 10000 Hz and 5 samples. -/
theorem write_square_wave_degenerate_witness :
    SAMPLE_RATE / ((10000 * 2) % 2 ^ 32) = 0 ∧
    (∃ s : List Nat, write_square_wave [] 10000 5 = some ([] ++ s) ∧ s.length = (5 : Int).toNat ∧
      ∀ i : Nat, (i : Int) < 5 → s[i]? = some (if i % 2 = 0 then 0xFF else 0x00)) ∧
    write_square_wave [] 10000 5 = write_square_wave [] 9600 5 ∧
    SAMPLE_RATE / ((9600 * 2) % 2 ^ 32) = 1 ∧
    ∀ x : Nat, x < 2 ^ 32 →
      (((x * 2) % 2 ^ 32 = 0 ↔ x = 0 ∨ x = 2 ^ 31) ∧
       (write_square_wave [] x 5 = none ↔ x = 0 ∨ x = 2 ^ 31)) :=
  write_square_wave_degenerate [] 10000 5 (by decide) (by decide)

/-! ## The payload as a sequence of bits -/

theorem byte_frame_bits (b : Nat) : byte_frame b = (frame_bits b).flatMap bit_wave := by
  simp only [byte_frame_eq, frame_bits, List.flatMap_cons, List.flatMap_nil, List.append_nil,
    List.append_assoc]

theorem byte_frames_bits (d : List Nat) :
    d.flatMap byte_frame = (d.flatMap frame_bits).flatMap bit_wave := by
  rw [List.flatMap_assoc]
  apply List.flatMap_congr
  intro b _
  exact byte_frame_bits b

theorem level_add_four (q : Nat) : level (4 + q) = level q := by
  unfold level
  have e : (4 + q) % 2 = q % 2 := by omega
  rw [e]

theorem bit_wave_one_closed :
    bit_wave 1 = (List.range 16).map (fun i => level (i / 4)) := by
  rw [bit_wave_nonzero 1 (by decide)]
  decide

/-- A run of `m` idle bits is the 2400 Hz square wave of `16 * m` samples. -/
theorem idle_bits_closed (m : Nat) :
    (List.replicate m (1 : Int)).flatMap bit_wave
      = (List.range (16 * m)).map (fun i => level (i / 4)) := by
  induction m with
  | zero => rfl
  | succ m ih =>
    have e : 16 * (m + 1) = 16 + 16 * m := by omega
    rw [List.replicate_succ, List.flatMap_cons, ih, e, List.range_add, List.map_append,
      List.map_map, bit_wave_one_closed]
    congr 1
    apply List.map_congr_left
    intro j _
    have e2 : (16 + j) / 4 = 4 + j / 4 := by omega
    simp only [Function.comp, e2, level_add_four]

theorem tone_idle_bits (m : Nat) :
    tone 2400 ((16 * m : Nat) : Int) = (List.replicate m (1 : Int)).flatMap bit_wave := by
  rw [idle_bits_closed, tone_closed 2400 _ (by decide) (by decide), Int.toNat_ofNat]

theorem tone_long_idle : tone 2400 38400 = (List.replicate 2400 (1 : Int)).flatMap bit_wave :=
  tone_idle_bits 2400

theorem tone_short_idle : tone 2400 9600 = (List.replicate 600 (1 : Int)).flatMap bit_wave :=
  tone_idle_bits 600

theorem idle_loop (k : Nat) :
    ∀ (i : Nat) (g : FILE),
      for_loop_from (fun _ g => write_bit g 1) k i g
        = some (g ++ (List.replicate k (1 : Int)).flatMap bit_wave) := by
  induction k with
  | zero => intro i g; simp [for_loop_from]
  | succ k ih =>
    intro i g
    simp only [for_loop_from, write_bit_some g 1, ih, List.replicate_succ, List.flatMap_cons,
      List.append_assoc]

theorem flatMap_bit_wave_length (bits : List Int) :
    (bits.flatMap bit_wave).length = 16 * bits.length := by
  induction bits with
  | nil => rfl
  | cons b bits ih =>
    simp only [List.flatMap_cons, List.length_append, bit_wave_length, ih, List.length_cons]
    omega

/-- The payload is the wave of a non-empty sequence of bits that starts with
the 2400 idle bits of the long preamble. -/
theorem main_bits (buf : List Nat) :
    ∃ rest : List Int,
      main buf = some ((List.replicate 2400 (1 : Int) ++ rest).flatMap bit_wave) := by
  rcases main_cases buf with ⟨_, hm⟩ | ⟨_, _, hm⟩ | ⟨_, _, hm⟩
  · exact ⟨buf.flatMap frame_bits, by
      rw [hm, List.flatMap_append, tone_long_idle, byte_frames_bits]⟩
  · exact ⟨buf.flatMap frame_bits, by
      rw [hm, List.flatMap_append, tone_long_idle, byte_frames_bits]⟩
  · exact ⟨(buf.take 16).flatMap frame_bits
      ++ (List.replicate 600 (1 : Int) ++ (buf.drop 16).flatMap frame_bits), by
      rw [hm, List.flatMap_append, List.flatMap_append, List.flatMap_append, tone_long_idle,
        tone_short_idle, byte_frames_bits, byte_frames_bits, List.append_assoc]⟩

/-- C18.  The long preamble `write_square_wave(2400, 38400)` is what 2400
consecutive calls `write_bit(1)` write, and the short preamble
`write_square_wave(2400, 9600)` what 600 such calls write.  Hence for every
input buffer the payload is the concatenation of the `write_bit` outputs of a
sequence of bits, and its length is a multiple of 16. -/
theorem preamble_idle_bits (buf : List Nat) :
    tone 2400 38400 = (List.replicate 2400 (1 : Int)).flatMap bit_wave ∧
    tone 2400 9600 = (List.replicate 600 (1 : Int)).flatMap bit_wave ∧
    (∀ g : FILE,
      for_loop 2400 (fun _ g => write_bit g 1) g = write_square_wave g 2400 38400) ∧
    (∀ g : FILE,
      for_loop 600 (fun _ g => write_bit g 1) g = write_square_wave g 2400 9600) ∧
    (∀ (g : FILE) (bit : Int), write_bit g bit = some (g ++ bit_wave bit)) ∧
    ∃ (bits : List Int) (payload : List Nat),
      main buf = some payload ∧ payload = bits.flatMap bit_wave ∧
      payload.length = 16 * bits.length ∧ 16 ∣ payload.length := by
  refine ⟨tone_long_idle, tone_short_idle, ?_, ?_, write_bit_some, ?_⟩
  · intro g
    rw [write_square_wave_some g 2400 38400 (by decide), tone_long_idle]
    exact idle_loop 2400 0 g
  · intro g
    rw [write_square_wave_some g 2400 9600 (by decide), tone_short_idle]
    exact idle_loop 600 0 g
  · rcases main_bits buf with ⟨rest, hm⟩
    exact ⟨_, _, hm, rfl, flatMap_bit_wave_length _,
      ⟨_, flatMap_bit_wave_length _⟩⟩

/-! ## Runs of equal samples -/

theorem splitBy_loop_replicate (n : Nat) :
    ∀ (v : Nat) (rest g : List Nat) (gs : List (List Nat)),
      List.splitBy.loop (fun a b => a == b) (List.replicate n v ++ rest) v g gs
        = List.splitBy.loop (fun a b => a == b) rest v (List.replicate n v ++ g) gs := by
  induction n with
  | zero => intro v rest g gs; rfl
  | succ n ih =>
    intro v rest g gs
    have hb : (v == v) = true := beq_self_eq_true v
    rw [List.replicate_succ, List.cons_append, List.splitBy.loop]
    simp only [hb]
    rw [ih]
    have e : List.replicate n v ++ v :: g = v :: List.replicate n v ++ g := by
      rw [← List.replicate_succ, List.replicate_succ', List.append_assoc]
      rfl
    rw [e]

/-- Splitting an expanded list of runs at the changes of value gives the runs
back, when no run is empty and neighbouring runs differ in value. -/
theorem splitBy_loop_expand (rs : List (Nat × Nat)) :
    ∀ (v k : Nat) (gs : List (List Nat)),
      (∀ r ∈ rs, 0 < r.2) → List.Chain' (fun r s => r.1 ≠ s.1) rs →
      (∀ r ∈ rs.head?, v ≠ r.1) →
      List.splitBy.loop (fun a b => a == b) (expand_runs rs) v (List.replicate k v) gs
        = gs.reverse ++ [List.replicate (k + 1) v]
            ++ rs.map (fun r => List.replicate r.2 r.1) := by
  induction rs with
  | nil =>
    intro v k gs _ _ _
    simp only [expand_runs, List.flatMap_nil, List.splitBy.loop, List.reverse_cons,
      List.reverse_replicate, List.map_nil, List.append_nil, List.reverse_nil, List.nil_append]
    rw [List.replicate_succ']
  | cons r rs ih =>
    intro v k gs hpos hch hhead
    obtain ⟨w, n⟩ := r
    have hn : 0 < n := hpos (w, n) (List.mem_cons_self _ _)
    obtain ⟨m, rfl⟩ : ∃ m, n = m + 1 := ⟨n - 1, by omega⟩
    have hvw : v ≠ w := hhead (w, m + 1) rfl
    have hb : (v == w) = false := beq_eq_false_iff_ne.2 hvw
    have hch2 : List.Chain' (fun r s => r.1 ≠ s.1) rs := hch.tail
    have hhead2 : ∀ r ∈ rs.head?, w ≠ r.1 := by
      intro r hr
      exact (List.chain'_cons'.1 hch).1 r hr
    have hpos2 : ∀ r ∈ rs, 0 < r.2 := fun r hr => hpos r (List.mem_cons_of_mem _ hr)
    have hex : expand_runs ((w, m + 1) :: rs) = w :: (List.replicate m w ++ expand_runs rs) := by
      simp only [expand_runs, List.flatMap_cons, List.replicate_succ, List.cons_append]
    rw [hex, List.splitBy.loop]
    simp only [hb]
    rw [splitBy_loop_replicate, List.append_nil, ih w m _ hpos2 hch2 hhead2]
    simp only [List.reverse_cons, List.reverse_replicate, List.map_cons, List.append_assoc,
      List.singleton_append]
    rw [← List.replicate_succ']
    rfl

theorem splitBy_expand (rs : List (Nat × Nat)) (hpos : ∀ r ∈ rs, 0 < r.2)
    (hch : List.Chain' (fun r s => r.1 ≠ s.1) rs) :
    (expand_runs rs).splitBy (fun a b => a == b) = rs.map (fun r => List.replicate r.2 r.1) := by
  cases rs with
  | nil => rfl
  | cons r rs =>
    obtain ⟨w, n⟩ := r
    have hn : 0 < n := hpos (w, n) (List.mem_cons_self _ _)
    obtain ⟨m, rfl⟩ : ∃ m, n = m + 1 := ⟨n - 1, by omega⟩
    have hhead : ∀ r ∈ rs.head?, w ≠ r.1 := by
      intro r hr
      exact (List.chain'_cons'.1 hch).1 r hr
    have hex : expand_runs ((w, m + 1) :: rs) = w :: (List.replicate m w ++ expand_runs rs) := by
      simp only [expand_runs, List.flatMap_cons, List.replicate_succ, List.cons_append]
    rw [hex, List.splitBy, splitBy_loop_replicate, List.append_nil,
      splitBy_loop_expand rs w m [] (fun r hr => hpos r (List.mem_cons_of_mem _ hr)) hch.tail hhead]
    simp only [List.reverse_nil, List.nil_append, List.map_cons, List.singleton_append]

theorem bit_wave_runs (bit : Int) : bit_wave bit = expand_runs (bit_runs bit) := by
  by_cases h : bit = 0
  · subst h
    rw [bit_wave_zero]
    rfl
  · rw [bit_wave_nonzero bit h]
    simp only [bit_runs, if_neg h]
    rfl

theorem flatMap_bit_wave_runs (bits : List Int) :
    bits.flatMap bit_wave = expand_runs (bits.flatMap bit_runs) := by
  unfold expand_runs
  rw [List.flatMap_assoc]
  apply List.flatMap_congr
  intro b _
  exact bit_wave_runs b

theorem bit_runs_length (bit : Int) : ∀ r ∈ bit_runs bit, r.2 = 4 ∨ r.2 = 8 := by
  intro r hr
  unfold bit_runs at hr
  split at hr
  · simp only [List.mem_cons, List.mem_singleton, List.not_mem_nil, or_false] at hr
    rcases hr with rfl | rfl <;> exact Or.inr rfl
  · simp only [List.mem_cons, List.mem_singleton, List.not_mem_nil, or_false] at hr
    rcases hr with rfl | rfl | rfl | rfl <;> exact Or.inl rfl

theorem bit_runs_chain (bits : List Int) :
    List.Chain' (fun r s => r.1 ≠ s.1) (bits.flatMap bit_runs)
      ∧ ∀ r ∈ (bits.flatMap bit_runs).head?, r.1 = 0xFF := by
  induction bits with
  | nil =>
    refine ⟨List.chain'_nil, ?_⟩
    intro r hr
    simp at hr
  | cons b bits ih =>
    rw [List.flatMap_cons]
    by_cases h : b = 0
    · simp only [bit_runs, if_pos h]
      refine ⟨?_, ?_⟩
      · refine List.Chain'.append (by simp) ih.1 ?_
        intro x hx y hy
        have hx2 : x = (0x00, 8) := by
          simp at hx
          exact hx.symm
        rw [hx2, ih.2 y hy]
        decide
      · intro r hr
        simp at hr
        rw [← hr]
    · simp only [bit_runs, if_neg h]
      refine ⟨?_, ?_⟩
      · refine List.Chain'.append (by simp) ih.1 ?_
        intro x hx y hy
        have hx2 : x = (0x00, 4) := by
          simp at hx
          exact hx.symm
        rw [hx2, ih.2 y hy]
        decide
      · intro r hr
        simp at hr
        rw [← hr]

theorem bit_wave_head (bit : Int) : (bit_wave bit).head? = some 0xFF := by
  by_cases h : bit = 0
  · subst h
    rw [bit_wave_zero]
    rfl
  · rw [bit_wave_nonzero bit h]
    rfl

theorem bit_wave_getLast (bit : Int) : (bit_wave bit).getLast? = some 0x00 := by
  by_cases h : bit = 0
  · subst h
    rw [bit_wave_zero]
    rfl
  · rw [bit_wave_nonzero bit h]
    rfl

theorem flatMap_bit_wave_head (b : Int) (bits : List Int) :
    ((b :: bits).flatMap bit_wave).head? = some 0xFF := by
  rw [List.flatMap_cons, List.head?_append, bit_wave_head]
  rfl

theorem flatMap_bit_wave_getLast (bits : List Int) (h : bits ≠ []) :
    (bits.flatMap bit_wave).getLast? = some 0x00 := by
  rcases List.eq_nil_or_concat bits with h0 | ⟨l, b, hb⟩
  · exact absurd h0 h
  · rw [hb, List.concat_eq_append, List.flatMap_append, List.flatMap_singleton,
      List.getLast?_append, bit_wave_getLast]
    rfl

/-- C19.  For every input buffer the payload starts with `0xFF`, ends with
`0x00`, and its maximal runs of equal consecutive samples, obtained by
splitting it wherever two neighbouring samples differ, all have length 4 or
8: the payload is a sequence of runs of length 4 or 8 in which neighbouring
runs differ in value. -/
theorem main_runs (buf : List Nat) :
    ∃ (payload : List Nat) (runs : List (Nat × Nat)),
      main buf = some payload ∧
      payload.head? = some 0xFF ∧ payload.getLast? = some 0x00 ∧
      payload = expand_runs runs ∧
      List.Chain' (fun r s => r.1 ≠ s.1) runs ∧
      (∀ r ∈ runs, r.2 = 4 ∨ r.2 = 8) ∧
      payload.splitBy (fun a b => a == b) = runs.map (fun r => List.replicate r.2 r.1) ∧
      ∀ run ∈ payload.splitBy (fun a b => a == b), run.length = 4 ∨ run.length = 8 := by
  rcases main_bits buf with ⟨rest, hm⟩
  have hne : List.replicate 2400 (1 : Int) ++ rest ≠ [] := by
    intro h
    have hl := congrArg List.length h
    rw [List.length_append, List.length_replicate, List.length_nil] at hl
    omega
  have hhead : ((List.replicate 2400 (1 : Int) ++ rest).flatMap bit_wave).head? = some 0xFF := by
    rw [List.replicate_succ, List.cons_append]
    exact flatMap_bit_wave_head _ _
  have hlen := fun r (hr : r ∈ (List.replicate 2400 (1 : Int) ++ rest).flatMap bit_runs) =>
    (show r.2 = 4 ∨ r.2 = 8 by
      rcases List.mem_flatMap.1 hr with ⟨b, _, hb⟩
      exact bit_runs_length b r hb)
  have hpos : ∀ r ∈ (List.replicate 2400 (1 : Int) ++ rest).flatMap bit_runs, 0 < r.2 := by
    intro r hr
    rcases hlen r hr with h | h <;> omega
  have hsplit := splitBy_expand _ hpos (bit_runs_chain (List.replicate 2400 (1 : Int) ++ rest)).1
  rw [← flatMap_bit_wave_runs] at hsplit
  refine ⟨_, (List.replicate 2400 (1 : Int) ++ rest).flatMap bit_runs, hm, hhead,
    flatMap_bit_wave_getLast _ hne, flatMap_bit_wave_runs _, (bit_runs_chain _).1, hlen,
    hsplit, ?_⟩
  intro run hrun
  rw [hsplit, List.mem_map] at hrun
  rcases hrun with ⟨r, hr, rfl⟩
  rw [List.length_replicate]
  exact hlen r hr

/-! ## Injectivity of the encoding -/

/-- A concatenation of blocks of one fixed positive length determines the
blocks, and with an injective block encoder the encoded items. -/
theorem flatMap_injective {α : Type} (enc : α → List Nat) (n : Nat) (hn : 0 < n)
    (P : α → Prop) (hlen : ∀ x, (enc x).length = n)
    (hinj : ∀ x y, P x → P y → enc x = enc y → x = y) :
    ∀ l₁ l₂ : List α, (∀ x ∈ l₁, P x) → (∀ x ∈ l₂, P x) →
      l₁.flatMap enc = l₂.flatMap enc → l₁ = l₂ := by
  intro l₁
  induction l₁ with
  | nil =>
    intro l₂ _ _ h
    cases l₂ with
    | nil => rfl
    | cons y l₂ =>
      have hl := congrArg List.length h
      simp only [List.flatMap_nil, List.flatMap_cons, List.length_nil, List.length_append,
        hlen] at hl
      omega
  | cons x l₁ ih =>
    intro l₂ h1 h2 h
    cases l₂ with
    | nil =>
      have hl := congrArg List.length h
      simp only [List.flatMap_nil, List.flatMap_cons, List.length_nil, List.length_append,
        hlen] at hl
      omega
    | cons y l₂ =>
      simp only [List.flatMap_cons] at h
      have hs := List.append_inj h (by rw [hlen, hlen])
      have hxy : x = y :=
        hinj x y (h1 x (List.mem_cons_self _ _)) (h2 y (List.mem_cons_self _ _)) hs.1
      have ht : l₁ = l₂ :=
        ih l₂ (fun z hz => h1 z (List.mem_cons_of_mem _ hz))
          (fun z hz => h2 z (List.mem_cons_of_mem _ hz)) hs.2
      rw [hxy, ht]

theorem bit_wave_zero_ne_one : bit_wave 0 ≠ bit_wave 1 := by
  rw [bit_wave_zero, bit_wave_nonzero 1 (by decide)]
  decide

theorem bit_wave_injective (x y : Int) (hx : x = 0 ∨ x = 1) (hy : y = 0 ∨ y = 1)
    (h : bit_wave x = bit_wave y) : x = y := by
  rcases hx with rfl | rfl <;> rcases hy with rfl | rfl
  · rfl
  · exact absurd h bit_wave_zero_ne_one
  · exact absurd h.symm bit_wave_zero_ne_one
  · rfl

theorem data_bit_cases (b k : Nat) :
    (((b >>> k) &&& 1 : Nat) : Int) = 0 ∨ (((b >>> k) &&& 1 : Nat) : Int) = 1 := by
  rw [Nat.and_one_is_mod]
  rcases Nat.mod_two_eq_zero_or_one (b >>> k) with h | h
  · left; rw [h]; rfl
  · right; rw [h]; rfl

theorem frame_bits_cases (b : Nat) : ∀ x ∈ frame_bits b, x = 0 ∨ x = 1 := by
  intro x hx
  simp only [frame_bits, List.mem_cons, List.mem_singleton, List.not_mem_nil, or_false] at hx
  rcases hx with h | h | h | h | h | h | h | h | h | h | h | h
  · exact Or.inl h
  · rw [h]; exact data_bit_cases b 0
  · rw [h]; exact data_bit_cases b 1
  · rw [h]; exact data_bit_cases b 2
  · rw [h]; exact data_bit_cases b 3
  · rw [h]; exact data_bit_cases b 4
  · rw [h]; exact data_bit_cases b 5
  · rw [h]; exact data_bit_cases b 6
  · rw [h]; exact data_bit_cases b 7
  · exact Or.inr h
  · exact Or.inr h
  · exact Or.inr h

theorem frame_bits_injective (a b : Nat) (ha : a < 256) (hb : b < 256)
    (h : frame_bits a = frame_bits b) : a = b := by
  simp only [frame_bits, List.cons.injEq, Nat.cast_inj, Nat.and_one_is_mod,
    Nat.shiftRight_eq_div_pow, true_and, and_true] at h
  obtain ⟨h0, h1, h2, h3, h4, h5, h6, h7⟩ := h
  norm_num at h0 h1 h2 h3 h4 h5 h6 h7
  omega

theorem byte_frame_injective (a b : Nat) (ha : a < 256) (hb : b < 256)
    (h : byte_frame a = byte_frame b) : a = b := by
  rw [byte_frame_bits, byte_frame_bits] at h
  exact frame_bits_injective a b ha hb
    (flatMap_injective bit_wave 16 (by decide) (fun x => x = 0 ∨ x = 1) bit_wave_length
      bit_wave_injective _ _ (frame_bits_cases a) (frame_bits_cases b) h)

theorem byte_frames_injective (a b : List Nat) (ha : ∀ x ∈ a, x < 256) (hb : ∀ x ∈ b, x < 256)
    (h : a.flatMap byte_frame = b.flatMap byte_frame) : a = b :=
  flatMap_injective byte_frame 192 (by decide) (fun x => x < 256) byte_frame_length
    byte_frame_injective a b ha hb h

theorem mem_of_mem_take16 (a : List Nat) (ha : ∀ x ∈ a, x < 256) :
    ∀ x ∈ a.take 16, x < 256 :=
  fun x hx => ha x (List.mem_of_mem_take hx)

theorem mem_of_mem_drop16 (a : List Nat) (ha : ∀ x ∈ a, x < 256) :
    ∀ x ∈ a.drop 16, x < 256 :=
  fun x hx => ha x (List.mem_of_mem_drop hx)

/-- Two one-block payloads are equal only for equal buffers. -/
theorem one_block_injective (a b : List Nat) (ha : ∀ x ∈ a, x < 256) (hb : ∀ x ∈ b, x < 256)
    (h : tone 2400 38400 ++ a.flatMap byte_frame = tone 2400 38400 ++ b.flatMap byte_frame) :
    a = b :=
  byte_frames_injective a b ha hb (List.append_cancel_left h)

/-- Two two-block payloads are equal only for equal buffers. -/
theorem two_block_injective (a b : List Nat) (ha : ∀ x ∈ a, x < 256) (hb : ∀ x ∈ b, x < 256)
    (hNa : 17 ≤ a.length) (hNb : 17 ≤ b.length)
    (h : tone 2400 38400 ++ (a.take 16).flatMap byte_frame
          ++ (tone 2400 9600 ++ (a.drop 16).flatMap byte_frame)
        = tone 2400 38400 ++ (b.take 16).flatMap byte_frame
          ++ (tone 2400 9600 ++ (b.drop 16).flatMap byte_frame)) :
    a = b := by
  have hl : (tone 2400 38400 ++ (a.take 16).flatMap byte_frame).length
      = (tone 2400 38400 ++ (b.take 16).flatMap byte_frame).length := by
    simp only [List.length_append, byte_frames_length, List.length_take]
    omega
  have hs := List.append_inj h hl
  have h1 : a.take 16 = b.take 16 :=
    one_block_injective _ _ (mem_of_mem_take16 a ha) (mem_of_mem_take16 b hb) hs.1
  have h2 : a.drop 16 = b.drop 16 :=
    byte_frames_injective _ _ (mem_of_mem_drop16 a ha) (mem_of_mem_drop16 b hb)
      (List.append_cancel_left hs.2)
  rw [← List.take_append_drop 16 a, ← List.take_append_drop 16 b, h1, h2]

/-- A two-block payload of a BASIC buffer is never the one-block payload of a
buffer that `is_basic_format` rejects: the rejected buffer would start with
the same 16 bytes. -/
theorem two_block_ne_binary (a b : List Nat) (ha : ∀ x ∈ a, x < 256) (hb : ∀ x ∈ b, x < 256)
    (hNa : 17 ≤ a.length) (hba : is_basic_format a a.length = some 1)
    (hbb : is_basic_format b b.length = some 0) :
    tone 2400 38400 ++ (a.take 16).flatMap byte_frame
        ++ (tone 2400 9600 ++ (a.drop 16).flatMap byte_frame)
      ≠ tone 2400 38400 ++ b.flatMap byte_frame := by
  intro h
  have hlen := congrArg List.length h
  simp only [List.length_append, byte_frames_length, List.length_take, List.length_drop,
    tone_long_length, tone_short_length] at hlen
  have hNb : b.length = a.length + 50 := by omega
  have hb16 : 16 ≤ b.length := by omega
  have hsplit : b.flatMap byte_frame
      = (b.take 16).flatMap byte_frame ++ (b.drop 16).flatMap byte_frame := by
    rw [← byte_frames_append, List.take_append_drop]
  rw [hsplit, List.append_assoc] at h
  have h2 := List.append_cancel_left h
  have hl : ((a.take 16).flatMap byte_frame).length
      = ((b.take 16).flatMap byte_frame).length := by
    simp only [byte_frames_length, List.length_take]
    omega
  have hs := List.append_inj h2 hl
  have ht : a.take 16 = b.take 16 :=
    byte_frames_injective _ _ (mem_of_mem_take16 a ha) (mem_of_mem_take16 b hb) hs.1
  have key : ∀ i : Nat, i < 10 → b[i]? = a[i]? := by
    intro i hi
    have hi16 : i < 16 := by omega
    have h1 : (b.take 16)[i]? = b[i]? := by rw [List.getElem?_take, if_pos hi16]
    have h3 : (a.take 16)[i]? = a[i]? := by rw [List.getElem?_take, if_pos hi16]
    rw [← h1, ← h3, ht]
  rcases is_basic_format_cases a with ⟨_, _, ha3⟩ | ⟨ha0, _⟩
  · rcases is_basic_format_cases b with ⟨hb1, _⟩ | ⟨_, hbn⟩
    · rw [hb1] at hbb
      exact absurd hbb (by decide)
    · exact hbn ⟨hb16, fun i hi => by rw [key i hi]; exact ha3 i hi⟩
  · rw [ha0] at hba
    exact absurd hba (by decide)

theorem payload_injective (a b : List Nat) (ha : ∀ x ∈ a, x < 256) (hb : ∀ x ∈ b, x < 256)
    (h : main a = main b) : a = b := by
  rcases main_cases a with ⟨ha0, hma⟩ | ⟨ha1, ha16, hma⟩ | ⟨ha1, ha17, hma⟩ <;>
    rcases main_cases b with ⟨hb0, hmb⟩ | ⟨hb1, hb16, hmb⟩ | ⟨hb1, hb17, hmb⟩ <;>
    rw [hma, hmb] at h <;> have hp := Option.some.inj h
  · exact one_block_injective a b ha hb hp
  · exact one_block_injective a b ha hb hp
  · exact absurd hp.symm (two_block_ne_binary b a hb ha hb17 hb1 ha0)
  · exact one_block_injective a b ha hb hp
  · exact one_block_injective a b ha hb hp
  · have hlen := congrArg List.length hp
    simp only [List.length_append, byte_frames_length, List.length_take, List.length_drop,
      tone_long_length, tone_short_length] at hlen
    omega
  · exact absurd hp (two_block_ne_binary a b ha hb ha17 ha1 hb0)
  · have hlen := congrArg List.length hp
    simp only [List.length_append, byte_frames_length, List.length_take, List.length_drop,
      tone_long_length, tone_short_length] at hlen
    omega
  · exact two_block_injective a b ha hb ha17 hb17 hp

theorem main_some (buf : List Nat) : ∃ payload : List Nat, main buf = some payload := by
  rcases main_cases buf with ⟨_, hm⟩ | ⟨_, _, hm⟩ | ⟨_, _, hm⟩ <;> exact ⟨_, hm⟩

/-- C17, for buffers shorter than `2^31` bytes, the range in which the `int`
counter of the byte loop does not overflow.  The conversion is injective on
byte buffers: both buffers get a payload, and equal payloads come from equal
buffers only.  In particular the waves of bit 0 and bit 1 differ, byte frames
of different bytes differ, and a BASIC buffer of `N >= 17` bytes and a
rejected buffer of `N + 50` bytes get payloads of the same length
`48000 + 192 * N` that differ. -/
theorem main_injective (a b : List Nat) (ha : ∀ x ∈ a, x < 256) (hb : ∀ x ∈ b, x < 256)
    (_hNa : a.length < 2 ^ 31) (_hNb : b.length < 2 ^ 31) :
    (∃ pa pb : List Nat, main a = some pa ∧ main b = some pb ∧ (pa = pb → a = b)) ∧
    (main a = main b → a = b) ∧
    bit_wave 0 ≠ bit_wave 1 ∧
    (∀ g : FILE, write_bit g 0 ≠ write_bit g 1) ∧
    (∀ x y : Nat, x < 256 → y < 256 → byte_frame x = byte_frame y → x = y) ∧
    (∀ (g : FILE) (x y : Nat), x < 256 → y < 256 → write_byte g x = write_byte g y → x = y) ∧
    (is_basic_format a a.length = some 1 → 17 ≤ a.length →
      is_basic_format b b.length = some 0 → b.length = a.length + 50 →
      ∃ pa pb : List Nat, main a = some pa ∧ main b = some pb ∧
        pa.length = 48000 + 192 * a.length ∧ pb.length = 48000 + 192 * a.length ∧ pa ≠ pb) := by
  have hinj := payload_injective a b ha hb
  obtain ⟨pa, hpa⟩ := main_some a
  obtain ⟨pb, hpb⟩ := main_some b
  refine ⟨⟨pa, pb, hpa, hpb, fun h => hinj (by rw [hpa, hpb, h])⟩, hinj, bit_wave_zero_ne_one,
    ?_, byte_frame_injective, ?_, ?_⟩
  · intro g h
    rw [write_bit_some, write_bit_some] at h
    exact bit_wave_zero_ne_one (List.append_cancel_left (Option.some.inj h))
  · intro g x y hx hy h
    rw [write_byte_some, write_byte_some] at h
    exact byte_frame_injective x y hx hy (List.append_cancel_left (Option.some.inj h))
  · intro hba hNa hbb hNb
    have hma := main_basic17_eq a hNa hba
    have hmb := main_binary_eq b hbb
    refine ⟨_, _, hma, hmb, ?_, ?_, two_block_ne_binary a b ha hb hNa hba hbb⟩
    · simp only [List.length_append, byte_frames_length, List.length_take, List.length_drop,
        tone_long_length, tone_short_length]
      omega
    · simp only [List.length_append, byte_frames_length, tone_long_length, hNb]
      omega

/-- C17 at a BASIC buffer of 17 bytes and a buffer of 67 zero bytes: equal
payload lengths, different payloads. -/
theorem main_injective_witness :
    (main (List.replicate 10 0xD3 ++ [70, 79, 79, 66, 65, 82, 7]) = main (List.replicate 67 0) →
      List.replicate 10 0xD3 ++ [70, 79, 79, 66, 65, 82, 7] = List.replicate 67 0) ∧
    ∃ pa pb : List Nat,
      main (List.replicate 10 0xD3 ++ [70, 79, 79, 66, 65, 82, 7]) = some pa ∧
      main (List.replicate 67 0) = some pb ∧
      pa.length = 48000 + 192 * (List.replicate 10 0xD3 ++ [70, 79, 79, 66, 65, 82, 7]).length ∧
      pb.length = 48000 + 192 * (List.replicate 10 0xD3 ++ [70, 79, 79, 66, 65, 82, 7]).length ∧
      pa ≠ pb :=
  ⟨(main_injective (List.replicate 10 0xD3 ++ [70, 79, 79, 66, 65, 82, 7]) (List.replicate 67 0)
      (by decide) (by decide) (by decide) (by decide)).2.1,
   (main_injective (List.replicate 10 0xD3 ++ [70, 79, 79, 66, 65, 82, 7]) (List.replicate 67 0)
      (by decide) (by decide) (by decide) (by decide)).2.2.2.2.2.2
      (by decide) (by decide) (by decide) (by decide)⟩

end P6towav
